import Mathlib

/-!
Verification of the tg-courier session job-queue, detached-job supervision and
state-store subsystem.  Each definition is a shallow embedding of the
corresponding Python function in `src/tgcourier/`; theorems at the end of the
file settle the specification claims against these definitions.

Modelling conventions:
* `asyncio` critical sections (code executed while holding a chat's lock, with
  no `await` inside) are single atomic transitions of a step relation.
* Machine integers do not overflow in Python, so integers are `Int`/`Nat`.
* Fallible operations return `Option`.
* JSON values are modelled by the inductive `Json` below.  Numbers are
  restricted to integers: every number this program ever places in a document
  (timestamps, ids, versions) is an `int`, and Python serialises `int`s and
  `float`s differently, so the integer fragment is the one the store exercises.
-/

namespace TgCourier

/-! ## JSON values

Model of the Python objects that `json.loads` produces and `json.dumps`
consumes: `None`, `bool`, `int`, `str`, `list`, `dict`.  A `dict` is an
insertion-ordered association list (CPython dicts preserve insertion order,
which `json.dumps` serialises in). -/

inductive Json where
  | null : Json
  | bool (b : Bool) : Json
  | num (n : Int) : Json
  | str (s : String) : Json
  | arr (items : List Json) : Json
  | obj (fields : List (String × Json)) : Json
deriving Inhabited

/-- Lookup in an insertion-ordered association list (a CPython dict): value
of the first binding of `k` (dicts hold at most one). -/
def assocGet {α β : Type} [DecidableEq α] (l : List (α × β)) (k : α) :
    Option β :=
  match l with
  | [] => none
  | (k0, v) :: rest => if k0 = k then some v else assocGet rest k

/-- Python `d.get(k)` on a dict, `None`-as-absent modelled by `Option`. -/
def dictGet (j : Json) (k : String) : Option Json :=
  match j with
  | .obj fields => assocGet fields k
  | _ => none

/-- CPython mutation of an insertion-ordered dict at key `k`: replace the
value in place when the key is present (`g (some old)`), append a new binding
otherwise (`g none`).  `d[k] = v` is `g := fun _ => v`;
`d.setdefault(k, []).append(x)` is `g := fun o => o.getD [] ++ [x]`. -/
def assocUpsert {α β : Type} [DecidableEq α] (l : List (α × β)) (k : α)
    (g : Option β → β) : List (α × β) :=
  match l with
  | [] => [(k, g none)]
  | (k0, v) :: rest =>
      if k0 = k then (k0, g (some v)) :: rest
      else (k0, v) :: assocUpsert rest k g

/-- CPython `d[k] = v` on an insertion-ordered dict. -/
def dictSet (fields : List (String × Json)) (k : String) (v : Json) :
    List (String × Json) :=
  assocUpsert fields k (fun _ => v)

/-- Python truthiness of a JSON-shaped value (`if x:`): `None`, `False`, `0`,
`""`, `[]` and `{}` are falsy, everything else truthy. -/
def pyTruthy : Json → Bool
  | .null => false
  | .bool b => b
  | .num n => n != 0
  | .str s => !s.isEmpty
  | .arr items => !items.isEmpty
  | .obj fields => !fields.isEmpty

/-! ## Session job queue (`src/tgcourier/queue.py`)

`ChatQueue` carries the mutable per-chat state of the Python class of the same
name plus two ghost histories (`enqueued`, `started`) that record, for the
theorems only, every job ever enqueued and every job a worker has popped and
begun executing, in order.  `WorkerPhase` is the program counter of the single
worker task: `idle` abstracts `worker_task is None or worker_task.done()`,
`loopTop` is the worker at the top of its `while True` loop, `running j` is
the worker executing `_run_job` for `j` (between the pop and the `finally`
that clears `current`). -/

inductive JobKind where
  | text
  | audio
deriving Repr, DecidableEq

structure Job where
  job_id : Nat
  kind : JobKind
  payload : String
  created_ms : Nat
deriving Repr, DecidableEq

inductive WorkerPhase where
  | idle
  | loopTop
  | running (j : Job)
deriving Repr, DecidableEq

structure ChatQueue where
  next_id : Nat
  queue : List Job
  current : Option Job
  phase : WorkerPhase
  enqueued : List Job
  started : List Job
deriving Repr, DecidableEq

/-- The state of a fresh `ChatQueue()`. -/
def ChatQueue.init : ChatQueue :=
  { next_id := 1, queue := [], current := none, phase := .idle,
    enqueued := [], started := [] }

/-- Number of jobs of this chat being executed right now. -/
def ChatQueue.executing (s : ChatQueue) : Nat :=
  match s.phase with
  | .running _ => 1
  | _ => 0

/-- `QueueManager.enqueue_text`: the critical section under `cq.lock`.
Builds the job from `next_id`, appends it, and spawns a worker task iff none
is live.  Returns `(job_id, position, started and not running)` exactly as the
Python function does. -/
def enqueue_text (s : ChatQueue) (text : String) (now : Nat) :
    (Nat × Nat × Bool) × ChatQueue :=
  let job : Job := { job_id := s.next_id, kind := .text, payload := text,
                     created_ms := now }
  let queue' := s.queue ++ [job]
  let running := s.current.isSome
  let pos := queue'.length
  let started := s.phase = .idle
  ((job.job_id, pos, started && !running),
   { s with next_id := s.next_id + 1, queue := queue',
            phase := if s.phase = .idle then .loopTop else s.phase,
            enqueued := s.enqueued ++ [job] })

/-- `QueueManager.enqueue_audio`: same critical section, audio payload. -/
def enqueue_audio (s : ChatQueue) (caption : String) (now : Nat) :
    (Nat × Nat × Bool) × ChatQueue :=
  let job : Job := { job_id := s.next_id, kind := .audio, payload := caption,
                     created_ms := now }
  let queue' := s.queue ++ [job]
  let running := s.current.isSome
  let pos := queue'.length
  let started := s.phase = .idle
  ((job.job_id, pos, started && !running),
   { s with next_id := s.next_id + 1, queue := queue',
            phase := if s.phase = .idle then .loopTop else s.phase,
            enqueued := s.enqueued ++ [job] })

/-- `QueueManager.drop_pending`: under `cq.lock`, records the pending count,
clears the pending list, and returns the count. -/
def drop_pending (s : ChatQueue) : Nat × ChatQueue :=
  (s.queue.length, { s with queue := [] })

/-- `QueueManager.snapshot`: under `cq.lock`, the current job and a copy of
the pending list. -/
def snapshot (s : ChatQueue) : Option Job × List Job :=
  (s.current, s.queue)

/-- One atomic transition of a chat's queue state.  `enq` covers both enqueue
entry points; `pop` and `exitEmpty` are the two branches of the locked section
at the top of `_worker`; `finish` is the `finally` that clears `current` after
`_run_job` returns, raises a handled exception, or is cancelled mid-job;
`crash` is the worker task dying on an unhandled send failure before entering
the `try` (leaving a stale `current`); `drop` is `drop_pending`; `cancel` is
`cancel_and_clear` (pending cleared, worker task cancelled and awaited). -/
inductive Step : ChatQueue → ChatQueue → Prop where
  | enqText (s : ChatQueue) (t : String) (now : Nat) :
      Step s (enqueue_text s t now).2
  | enqAudio (s : ChatQueue) (c : String) (now : Nat) :
      Step s (enqueue_audio s c now).2
  | pop (s : ChatQueue) (j : Job) (rest : List Job) :
      s.phase = .loopTop → s.queue = j :: rest →
      Step s { s with queue := rest, current := some j, phase := .running j,
                      started := s.started ++ [j] }
  | exitEmpty (s : ChatQueue) :
      s.phase = .loopTop → s.queue = [] →
      Step s { s with current := none, phase := .idle }
  | finish (s : ChatQueue) (j : Job) :
      s.phase = .running j →
      Step s { s with current := none, phase := .loopTop }
  | crash (s : ChatQueue) (j : Job) :
      s.phase = .running j →
      Step s { s with phase := .idle }
  | drop (s : ChatQueue) :
      Step s (drop_pending s).2
  | cancel (s : ChatQueue) :
      Step s { s with queue := [], current := none, phase := .idle }

/-- Reachability of a chat-queue state from the fresh state. -/
def Reach (s : ChatQueue) : Prop :=
  Relation.ReflTransGen Step ChatQueue.init s

/-- The inductive invariant tying the ghost histories to the live state:
the jobs already begun followed by the jobs still pending form a sublist of
everything ever enqueued, enqueued ids strictly increase, and every enqueued
id is below the counter. -/
structure QueueInv (s : ChatQueue) : Prop where
  hist : (s.started ++ s.queue).Sublist s.enqueued
  enq_ids : List.Chain' (· < ·) (s.enqueued.map Job.job_id)
  enq_lt_next : ∀ j ∈ s.enqueued, j.job_id < s.next_id

/-! ## Python string helpers -/

/-- The characters Python `str.strip()` removes (ASCII whitespace; the exotic
Unicode whitespace Python also strips never occurs in the texts these claims
are about). -/
def pyWs (c : Char) : Bool :=
  c = ' ' || c = '\t' || c = '\n' || c = '\x0d' || c = '\x0b' || c = '\x0c'

/-- Python `s.strip()`. -/
def pyStrip (s : String) : String :=
  ⟨((s.data.dropWhile pyWs).reverse.dropWhile pyWs).reverse⟩

/-! ## Detached-job supervisor (`src/tgcourier/bg_jobs.py`)

`BgJobManager` holds the registry of background jobs.  `ProcHandle` models
the `asyncio.subprocess.Process` attached to a started job: `returncode` is
the exit status recorded by the event loop (still `none` right after a signal
is sent), `osAlive` says whether the OS process can still be signalled
(`send_signal` raises `ProcessLookupError` otherwise). -/

structure ProcHandle where
  returncode : Option Int
  osAlive : Bool
deriving Repr, DecidableEq

structure BgJob where
  job_id : Nat
  chat_id : Int
  title : String
  cmd : List String
  cwd : String
  created_ms : Nat
  log_path : String
  proc : Option ProcHandle := none
  pid : Option Int := none
  started_ms : Option Nat := none
  ended_ms : Option Nat := none
  exit_code : Option Int := none
  status_message_id : Option Int := none
deriving Repr, DecidableEq

structure BgJobManager where
  next_id : Nat
  jobs : List (Nat × BgJob)
  by_chat : List (Int × List Nat)
  dir : String
deriving Repr, DecidableEq

/-- A fresh `BgJobManager`. -/
def BgJobManager.fresh (dir : String) : BgJobManager :=
  { next_id := 1, jobs := [], by_chat := [], dir := dir }

/-- Python `self._jobs.get(job_id)`. -/
def BgJobManager.get (m : BgJobManager) (job_id : Nat) : Option BgJob :=
  assocGet m.jobs job_id

/-- Python `self._by_chat.get(chat_id, [])`. -/
def BgJobManager.chatIds (m : BgJobManager) (chat_id : Int) : List Nat :=
  (assocGet m.by_chat chat_id).getD []

/-- In-place mutation of the job object bound to `i` (the Python code mutates
the `BgJob` dataclass it already holds; every alias observes the change, so
the registry binding is updated). -/
def jobsUpdate (l : List (Nat × BgJob)) (i : Nat) (f : BgJob → BgJob) :
    List (Nat × BgJob) :=
  match l with
  | [] => []
  | (i0, j0) :: rest =>
      (i0, if i0 = i then f j0 else j0) :: jobsUpdate rest i f

/-- `BgJobManager.start`: the critical section under `self._lock` — allocate
the next process-wide id, register the job, index it under its chat.  The
monitoring task (`_run`) is spawned afterwards and modelled by `BgStep.run`
transitions. -/
def BgJobManager.start (m : BgJobManager) (chat_id : Int) (title : String)
    (cmd : List String) (cwd : String) (now : Nat) : BgJob × BgJobManager :=
  let job_id := m.next_id
  let log_path := m.dir ++ "/" ++ Nat.repr job_id ++ ".log"
  let title' := if (pyStrip title).isEmpty then "(background job)"
                else pyStrip title
  let job : BgJob := { job_id := job_id, chat_id := chat_id, title := title',
                       cmd := cmd, cwd := cwd, created_ms := now,
                       log_path := log_path }
  (job, { m with next_id := job_id + 1,
                 jobs := assocUpsert m.jobs job_id (fun _ => job),
                 by_chat := assocUpsert m.by_chat chat_id
                   (fun o => o.getD [] ++ [job_id]) })

/-- `BgJobManager.list_for_chat`: most recently created first, bounded by
`max(1, int(limit))`. -/
def BgJobManager.list_for_chat (m : BgJobManager) (chat_id : Int)
    (limit : Int) : List BgJob :=
  let ids := ((m.chatIds chat_id).reverse).take (max 1 limit).toNat
  ids.filterMap m.get

/-- `BgJobManager.cancel`: false when the job is unknown, has no started
process, or has a recorded exit code; otherwise `send_signal(SIGTERM)` — true
on success, false when the OS process is already gone
(`ProcessLookupError`).  The call synchronously mutates nothing: the SIGTERM
delivery, the 10-second `hard_kill` timer and the eventual exit-code
recording are all separate later events, so the function is pure in the
registry. -/
def BgJobManager.cancel (m : BgJobManager) (job_id : Nat) : Bool :=
  match m.get job_id with
  | none => false
  | some job =>
      match job.proc with
      | none => false
      | some p =>
          if p.returncode.isSome then false
          else p.osAlive

/-- Consecutive `cancel` calls with no intervening event-loop activity (no
process exit, no signal delivered yet): each call observes the same registry
because `cancel` itself mutates nothing. -/
def cancelCalls (m : BgJobManager) (ids : List Nat) : List Bool :=
  ids.map m.cancel

/-- One transition of the supervisor: a `start` call, or a mutation by a
job's own monitoring task / the OS (`_run` records `proc`, `pid`,
`started_ms`, `ended_ms`, `exit_code`, `status_message_id`; the process
exits).  Such mutations never change a job's identity. -/
inductive BgStep : BgJobManager → BgJobManager → Prop where
  | start (m : BgJobManager) (chat_id : Int) (title : String)
      (cmd : List String) (cwd : String) (now : Nat) :
      BgStep m (m.start chat_id title cmd cwd now).2
  | run (m : BgJobManager) (i : Nat) (f : BgJob → BgJob)
      (hf : ∀ j, (f j).job_id = j.job_id) :
      BgStep m { m with jobs := jobsUpdate m.jobs i f }

/-- Reachability of a registry state from a fresh manager. -/
def BgReach (m : BgJobManager) : Prop :=
  ∃ dir, Relation.ReflTransGen BgStep (BgJobManager.fresh dir) m

/-- Registry invariant: each chat's index lists strictly increasing job ids,
all below the counter, and each indexed id resolves to a job carrying that
id. -/
structure BgInv (m : BgJobManager) : Prop where
  ids_chain : ∀ c, List.Chain' (· < ·) (m.chatIds c)
  ids_lt : ∀ c, ∀ i ∈ m.chatIds c, i < m.next_id
  ids_present : ∀ c, ∀ i ∈ m.chatIds c, ∃ j, m.get i = some j ∧ j.job_id = i

/-- A concrete registry: job 1 started and still running. -/
def c3Sample : BgJobManager :=
  { next_id := 2,
    jobs := [(1, { job_id := 1, chat_id := 7, title := "build", cmd := ["make"],
                   cwd := ".", created_ms := 0, log_path := "1.log",
                   proc := some { returncode := none, osAlive := true },
                   pid := some 100, started_ms := some 0 })],
    by_chat := [(7, [1])],
    dir := "" }

/-! ## Serialisation (`json.dumps(data, ensure_ascii=False, indent=2)`)

`StateStore.save` serialises with `json.dumps(data, ensure_ascii=False,
indent=2)`.  The model reproduces that output character for character for the
`Json` fragment above: two-space indentation, `", "`-free separators
(`(',', ': ')` in indent mode), short escapes for the common control
characters, `\u00xx` for the rest, and non-ASCII characters emitted raw. -/

/-- Lowercase hexadecimal digit, as CPython formats `\uXXXX` escapes. -/
def hexDigitChar (n : Nat) : Char :=
  if n < 10 then Char.ofNat (48 + n) else Char.ofNat (87 + n)

/-- The expansion of one character inside a JSON string literal
(`ensure_ascii=False`): backslash, quote and control characters are escaped,
everything else is emitted as-is. -/
def escapeChar (c : Char) : List Char :=
  if c = '"' then ['\\', '"']
  else if c = '\\' then ['\\', '\\']
  else if c = '\n' then ['\\', 'n']
  else if c = '\t' then ['\\', 't']
  else if c = '\x0d' then ['\\', 'r']
  else if c = '\x08' then ['\\', 'b']
  else if c = '\x0c' then ['\\', 'f']
  else if c.toNat < 0x20 then
    ['\\', 'u', '0', '0', hexDigitChar (c.toNat / 16), hexDigitChar (c.toNat % 16)]
  else [c]

def escapeList : List Char → List Char
  | [] => []
  | c :: cs => escapeChar c ++ escapeList cs

/-- A JSON string literal: quote, escaped content, quote. -/
def encodeString (cs : List Char) : List Char :=
  '"' :: escapeList cs ++ ['"']

/-- Decimal digits of a natural number (CPython `repr` of a non-negative
int). -/
def natToChars (n : Nat) : List Char :=
  if h : n < 10 then [Char.ofNat (48 + n)]
  else natToChars (n / 10) ++ [Char.ofNat (48 + n % 10)]
  termination_by n
  decreasing_by
    exact Nat.div_lt_self (Nat.pos_of_ne_zero (fun hz => by omega)) (by omega)

/-- CPython `repr` of an int. -/
def intToChars (i : Int) : List Char :=
  if i < 0 then '-' :: natToChars i.natAbs else natToChars i.toNat

/-- The indentation prefix at nesting level `lvl` for `indent=2`. -/
def indentChars (lvl : Nat) : List Char :=
  List.replicate (2 * lvl) ' '

mutual
/-- `json.dumps(v, ensure_ascii=False, indent=2)` at nesting level `lvl`. -/
def dumpsVal : Json → Nat → List Char
  | .null, _ => ['n', 'u', 'l', 'l']
  | .bool true, _ => ['t', 'r', 'u', 'e']
  | .bool false, _ => ['f', 'a', 'l', 's', 'e']
  | .num n, _ => intToChars n
  | .str s, _ => encodeString s.data
  | .arr [], _ => ['[', ']']
  | .arr (x :: xs), lvl =>
      '[' :: '\n' :: (indentChars (lvl + 1) ++ dumpsVal x (lvl + 1)
        ++ dumpsItems xs (lvl + 1) ++ '\n' :: (indentChars lvl ++ [']']))
  | .obj [], _ => ['{', '}']
  | .obj (kv :: kvs), lvl =>
      '{' :: '\n' :: (indentChars (lvl + 1) ++ encodeString kv.1.data
        ++ ':' :: ' ' :: dumpsVal kv.2 (lvl + 1)
        ++ dumpsFields kvs (lvl + 1) ++ '\n' :: (indentChars lvl ++ ['}']))

/-- The remaining array items, each preceded by `",\n" + indent`. -/
def dumpsItems : List Json → Nat → List Char
  | [], _ => []
  | x :: xs, lvl =>
      ',' :: '\n' :: (indentChars lvl ++ dumpsVal x lvl ++ dumpsItems xs lvl)

/-- The remaining object members, each preceded by `",\n" + indent`. -/
def dumpsFields : List (String × Json) → Nat → List Char
  | [], _ => []
  | kv :: kvs, lvl =>
      ',' :: '\n' :: (indentChars lvl ++ encodeString kv.1.data
        ++ ':' :: ' ' :: dumpsVal kv.2 lvl ++ dumpsFields kvs lvl)
end

/-- `json.dumps(data, ensure_ascii=False, indent=2)` as a string. -/
def pyJsonDumps (d : Json) : String :=
  ⟨dumpsVal d 0⟩

/-! ## Parsing (`json.loads`)

A fuel-indexed recursive-descent parser for the grammar `json.loads`
accepts, restricted to the fragment the store exercises: numbers must be
integers (a fraction or exponent makes the parse fail in the model, where
CPython would produce a float), and `\uXXXX` escapes must denote Unicode
scalar values (Lean strings cannot carry the lone surrogates CPython strings
admit; surrogate pairs are combined as CPython does).  Failure (`none`)
models `json.JSONDecodeError`. -/

/-- The whitespace `json.loads` skips between tokens. -/
def jsonWs (c : Char) : Bool :=
  c = ' ' || c = '\t' || c = '\n' || c = '\x0d'

def skipWs (cs : List Char) : List Char :=
  cs.dropWhile jsonWs

/-- Numeric value of a digit run. -/
def digitsVal (ds : List Char) : Nat :=
  ds.foldl (fun a c => a * 10 + (c.toNat - 48)) 0

/-- An unsigned JSON integer token: `0`, or a nonzero digit followed by a
maximal digit run (the grammar `0|[1-9][0-9]*` — a leading zero is a
complete token by itself). -/
def parseUInt (cs : List Char) : Option (Nat × List Char) :=
  match cs with
  | [] => none
  | c :: rest =>
      if c = '0' then some (0, rest)
      else if c.isDigit then
        some (digitsVal (c :: rest.takeWhile Char.isDigit),
              rest.dropWhile Char.isDigit)
      else none

/-- Does a fraction or exponent follow (which would make the number a
float, outside the integer fragment modelled here)? -/
def headFloat : List Char → Bool
  | [] => false
  | c :: _ => c = '.' || c = 'e' || c = 'E'

/-- A JSON number token, integers only. -/
def parseNum (cs : List Char) : Option (Int × List Char) :=
  match cs with
  | [] => none
  | c :: rest =>
      if c = '-' then
        match parseUInt rest with
        | some (n, r) => if headFloat r then none else some (-(n : Int), r)
        | none => none
      else
        match parseUInt (c :: rest) with
        | some (n, r) => if headFloat r then none else some ((n : Int), r)
        | none => none

/-- Value of one hexadecimal digit (`json.loads` accepts both cases). -/
def hexVal (c : Char) : Option Nat :=
  if '0' ≤ c ∧ c ≤ '9' then some (c.toNat - 48)
  else if 'a' ≤ c ∧ c ≤ 'f' then some (c.toNat - 87)
  else if 'A' ≤ c ∧ c ≤ 'F' then some (c.toNat - 55)
  else none

/-- The value of the short backslash escapes (`BACKSLASH` table in
CPython's json decoder; `\u` is handled separately). -/
def unescChar (e : Char) : Option Char :=
  if e = '"' then some '"'
  else if e = '\\' then some '\\'
  else if e = '/' then some '/'
  else if e = 'b' then some '\x08'
  else if e = 'f' then some '\x0c'
  else if e = 'n' then some '\n'
  else if e = 'r' then some '\x0d'
  else if e = 't' then some '\t'
  else none

/-- The value of four hexadecimal digits, if all four are such. -/
def hex4 (h1 h2 h3 h4 : Char) : Option Nat :=
  match hexVal h1, hexVal h2, hexVal h3, hexVal h4 with
  | some a, some b, some c, some d =>
      some (((a * 16 + b) * 16 + c) * 16 + d)
  | _, _, _, _ => none

/-- The character with code point `n`, when `n` is a Unicode scalar value. -/
def uniChar (n : Nat) : Option Char :=
  if h : n.isValidChar then some (Char.ofNatAux n h) else none

mutual
/-- The body of a JSON string literal after the opening quote: content up to
the closing quote plus the remaining input.  `strict=True`: raw control
characters are rejected.  The fuel only bounds recursion depth; every step
consumes at least one character, so `cs.length` fuel always suffices. -/
def parseStringBody : Nat → List Char → Option (List Char × List Char)
  | 0, _ => none
  | _ + 1, [] => none
  | fuel + 1, c :: rest =>
      if c = '"' then some ([], rest)
      else if c = '\\' then parseEscape fuel rest
      else if c.toNat < 0x20 then none
      else (parseStringBody fuel rest).map (fun p => (c :: p.1, p.2))

/-- An escape sequence, positioned after the backslash (CPython's escape
table plus the `\u` case). -/
def parseEscape : Nat → List Char → Option (List Char × List Char)
  | _, [] => none
  | fuel, e :: rest2 =>
      if e = 'u' then parseUEsc fuel rest2
      else
        match unescChar e with
        | some c2 => (parseStringBody fuel rest2).map
            (fun p => (c2 :: p.1, p.2))
        | none => none

/-- A `\uXXXX` escape, positioned after the `\u`: a scalar value stands for
its character; a high surrogate must be followed by a low one (CPython
additionally admits lone surrogates, which Lean strings cannot carry). -/
def parseUEsc : Nat → List Char → Option (List Char × List Char)
  | fuel, h1 :: h2 :: h3 :: h4 :: rest3 =>
      (match hex4 h1 h2 h3 h4 with
       | none => none
       | some n =>
           match uniChar n with
           | some ch => (parseStringBody fuel rest3).map
               (fun p => (ch :: p.1, p.2))
           | none => if n ≤ 0xdbff then parseLowSur fuel n rest3 else none)
  | _, _ => none

/-- The low half of a surrogate pair: a following `\uXXXX` in
`DC00`–`DFFF`, combined with the pending high half `n`. -/
def parseLowSur : Nat → Nat → List Char → Option (List Char × List Char)
  | fuel, n, b1 :: b2 :: g1 :: g2 :: g3 :: g4 :: rest4 =>
      (if b1 = '\\' ∧ b2 = 'u' then
        match hex4 g1 g2 g3 g4 with
        | none => none
        | some m =>
            if 0xdc00 ≤ m ∧ m ≤ 0xdfff then
              match uniChar (0x10000 + (n - 0xd800) * 0x400 + (m - 0xdc00)) with
              | some ch => (parseStringBody fuel rest4).map
                  (fun p => (ch :: p.1, p.2))
              | none => none
            else none
      else none)
  | _, _, _ => none
end

/-- The literal suffix check of CPython's scanner
(`s[idx:idx + 4] == 'null'` and the like): strip an expected run of
characters. -/
def expectChars : List Char → List Char → Option (List Char)
  | [], cs => some cs
  | e :: es, c :: cs => if c = e then expectChars es cs else none
  | _ :: _, [] => none

mutual
/-- One JSON value at the head of the input (no leading whitespace), with
`fuel` bounding the recursion depth; the branch structure is CPython's
scanner: dispatch on the first character, then literals / string / array /
object / number. -/
def parseVal : Nat → List Char → Option (Json × List Char)
  | 0, _ => none
  | fuel + 1, cs =>
      match cs with
      | [] => none
      | c :: rest =>
          if c = 'n' then
            (expectChars ['u', 'l', 'l'] rest).map (fun r => (.null, r))
          else if c = 't' then
            (expectChars ['r', 'u', 'e'] rest).map (fun r => (.bool true, r))
          else if c = 'f' then
            (expectChars ['a', 'l', 's', 'e'] rest).map
              (fun r => (.bool false, r))
          else if c = '"' then
            (parseStringBody rest.length rest).map
              (fun p => (.str ⟨p.1⟩, p.2))
          else if c = '[' then
            match skipWs rest with
            | [] => none
            | c1 :: r =>
                if c1 = ']' then some (.arr [], r)
                else parseElems fuel (c1 :: r) []
          else if c = '{' then
            match skipWs rest with
            | [] => none
            | c1 :: r =>
                if c1 = '}' then some (.obj [], r)
                else parseMembers fuel (c1 :: r) []
          else (parseNum (c :: rest)).map (fun p => (.num p.1, p.2))

/-- The element loop of an array, positioned at the start of a value;
`acc` is the list built so far. -/
def parseElems : Nat → List Char → List Json → Option (Json × List Char)
  | 0, _, _ => none
  | fuel + 1, cs, acc =>
      match parseVal fuel cs with
      | none => none
      | some (v, r) =>
          match skipWs r with
          | [] => none
          | c :: r2 =>
              if c = ',' then parseElems fuel (skipWs r2) (acc ++ [v])
              else if c = ']' then some (.arr (acc ++ [v]), r2)
              else none

/-- One `"key": value` member, positioned at the opening quote of the key. -/
def parsePair : Nat → List Char → Option ((String × Json) × List Char)
  | 0, _ => none
  | fuel + 1, cs =>
      match cs with
      | [] => none
      | c :: r =>
          if c = '"' then
            match parseStringBody r.length r with
            | some (k, r1) =>
                match skipWs r1 with
                | [] => none
                | c1 :: r2 =>
                    if c1 = ':' then
                      (parseVal fuel (skipWs r2)).map
                        (fun p => ((⟨k⟩, p.1), p.2))
                    else none
            | none => none
          else none

/-- The member loop of an object, positioned at the start of a member;
`acc` is the dict built so far (duplicate keys overwrite in place, as in a
CPython dict). -/
def parseMembers : Nat → List Char → List (String × Json) →
    Option (Json × List Char)
  | 0, _, _ => none
  | fuel + 1, cs, acc =>
      match parsePair fuel cs with
      | none => none
      | some (kv, r) =>
          let acc2 := assocUpsert acc kv.1 (fun _ => kv.2)
          match skipWs r with
          | [] => none
          | c :: r2 =>
              if c = ',' then parseMembers fuel (skipWs r2) acc2
              else if c = '}' then some (.obj acc2, r2)
              else none
end

/-- `json.loads`: skip surrounding whitespace, parse one value, require the
rest to be whitespace.  `none` models `json.JSONDecodeError`. -/
def pyJsonLoads (s : String) : Option Json :=
  match parseVal (s.data.length + 1) (skipWs s.data) with
  | some (v, rest) => if (skipWs rest).isEmpty then some v else none
  | none => none

mutual
/-- Fuel needed by `parseVal` on the printed form of a value. -/
def sizeJ : Json → Nat
  | .null => 1
  | .bool _ => 1
  | .num _ => 1
  | .str _ => 1
  | .arr l => 1 + sizeL l
  | .obj kvs => 1 + sizeF kvs

def sizeL : List Json → Nat
  | [] => 0
  | x :: xs => 1 + sizeJ x + sizeL xs

def sizeF : List (String × Json) → Nat
  | [] => 0
  | kv :: kvs => 2 + sizeJ kv.2 + sizeF kvs
end

/-- The characters that can follow a value in the printed document: nothing,
or a separator / closer / newline.  None of them can extend a number token,
which is what the completeness proof needs of the context. -/
def Delim : List Char → Prop
  | [] => True
  | c :: _ => c = ',' ∨ c = '\n' ∨ c = ']' ∨ c = '}'

/-- The dict built by inserting the pairs `ps` into `acc` in order, one
`d[k] = v` at a time — what the object member loop of the parser produces. -/
def buildFields (acc : List (String × Json)) (ps : List (String × Json)) :
    List (String × Json) :=
  ps.foldl (fun a p => assocUpsert a p.1 (fun _ => p.2)) acc

/-- Key `k` is not bound in the association list. -/
def keyAbsent (k : String) (l : List (String × Json)) : Bool :=
  !(l.any (fun kv => kv.1 = k))

/-- Each key is bound at most once. -/
def keysDistinct : List (String × Json) → Bool
  | [] => true
  | kv :: rest => keyAbsent kv.1 rest && keysDistinct rest

mutual
/-- No dict anywhere in the value binds the same key twice.  Every value
built of CPython dicts satisfies this (a dict cannot hold a key twice); it
can fail only for the raw association lists of the model. -/
def wfKeys : Json → Bool
  | .null => true
  | .bool _ => true
  | .num _ => true
  | .str _ => true
  | .arr l => wfKeysL l
  | .obj kvs => keysDistinct kvs && wfKeysF kvs

def wfKeysL : List Json → Bool
  | [] => true
  | x :: xs => wfKeys x && wfKeysL xs

def wfKeysF : List (String × Json) → Bool
  | [] => true
  | kv :: kvs => wfKeys kv.2 && wfKeysF kvs
end

/-- A concrete registry built by two `start` calls for chat 7. -/
def c10Sample : BgJobManager :=
  (((BgJobManager.fresh "d").start 7 "a" ["x"] "." 1).2.start 7 "b" ["y"] "." 2).2

/-- A concrete chat-queue state: texts "A" and "B" enqueued, "A" popped and
executing. -/
def c1Sample : ChatQueue :=
  let a : Job := { job_id := 1, kind := .text, payload := "A", created_ms := 5 }
  let b : Job := { job_id := 2, kind := .text, payload := "B", created_ms := 6 }
  { next_id := 3, queue := [b], current := some a, phase := .running a,
    enqueued := [a, b], started := [a] }

/-! ## State store (`src/tgcourier/state.py`)

`FS` is the slice of the file system `StateStore` touches: the store file at
`self._path` (`main`), the temporary file at `self._path + ".tmp"` (`tmp`)
and the quarantine files at `self._path + ".corrupt.<ts>"` (`backups`,
keyed by the Unix timestamp `int(time.time())`).  `none` means the file does
not exist.  Readers (including `load`) only ever open `main`. -/

structure FS where
  main : Option String
  tmp : Option String
  backups : List (Nat × String)
deriving Repr, DecidableEq

/-- The fresh empty document
`{"version": 1, "claimed_user_id": None, "chats": {}}`. -/
def freshDoc : Json :=
  .obj [("version", .num 1), ("claimed_user_id", .null), ("chats", .obj [])]

/-- The serialized form `save` writes:
`json.dumps(data, ensure_ascii=False, indent=2) + "\n"`. -/
def serializeDoc (data : Json) : String :=
  pyJsonDumps data ++ "\n"

/-- First step of `StateStore.save`: `tmp.write_text(...)`.  A crash during
the write leaves an arbitrary (partial) `content` in the tmp file; the
target file is untouched. -/
def writeTmp (fs : FS) (content : String) : FS :=
  { fs with tmp := some content }

/-- Second step of `StateStore.save`: `tmp.replace(self._path)`, the atomic
rename of the tmp file over the target. -/
def renameTmpOverMain (fs : FS) : FS :=
  { fs with main := fs.tmp, tmp := none }

/-- `StateStore.save(data)`: serialize, write the temporary file, atomically
rename it over the target. -/
def StateStore.save (fs : FS) (data : Json) : FS :=
  renameTmpOverMain (writeTmp fs (serializeDoc data))

/-- `StateStore.load()`: missing file → fresh empty document; unparseable
file (`json.loads` raises) → rename the file aside to a timestamped
`.corrupt.<now>` path and return the fresh empty document; otherwise the
parsed document.  Total — no failure escapes to the caller. -/
def StateStore.load (fs : FS) (now : Nat) : Json × FS :=
  match fs.main with
  | none => (freshDoc, fs)
  | some content =>
      match pyJsonLoads content with
      | some d => (d, fs)
      | none =>
          (freshDoc,
           { fs with main := none, backups := (now, content) :: fs.backups })

/-! ## Detach directive extraction (`src/tgcourier/tool_directives.py`)

`extract_detach_directive` scans the agent reply line by line for the
sentinel `TG_COURIER_TOOL: DETACH` and tries to parse the first non-blank
line after it as a JSON object. -/

/-- The characters Python `str.splitlines()` treats as line boundaries
(besides the two-character boundary `"\x0d\n"`). -/
def isLineBreak (c : Char) : Bool :=
  c = '\n' || c = '\x0d' || c = '\x0b' || c = '\x0c' ||
  c = '\x1c' || c = '\x1d' || c = '\x1e' || c = '\x85' ||
  c = '\u2028' || c = '\u2029'

/-- Worker for `str.splitlines()`: `acc` holds the characters of the current
line in reverse.  A boundary at the very end of the input terminates the last
line without opening an empty one. -/
def splitlinesAux : List Char → List Char → List String
  | [], acc => [⟨acc.reverse⟩]
  | '\x0d' :: '\n' :: rest2, acc =>
      ⟨acc.reverse⟩ ::
        (match rest2 with | [] => [] | _ => splitlinesAux rest2 [])
  | c :: rest, acc =>
      if isLineBreak c then
        ⟨acc.reverse⟩ ::
          (match rest with | [] => [] | _ => splitlinesAux rest [])
      else splitlinesAux rest (c :: acc)

/-- Python `s.splitlines()`: the empty string yields no lines. -/
def pySplitlines (s : String) : List String :=
  match s.data with
  | [] => []
  | cs => splitlinesAux cs []

/-- Python `s.upper()`, faithful on the ASCII inputs the sentinel comparison
distinguishes (full Unicode case mapping is outside the model). -/
def pyUpper (s : String) : String :=
  ⟨s.data.map Char.toUpper⟩

/-- The sentinel test `line.strip().upper() == "TG_COURIER_TOOL: DETACH"`
applied in the scan loop. -/
def isSentinel (l : String) : Bool :=
  pyUpper (pyStrip l) == "TG_COURIER_TOOL: DETACH"

/-- `isinstance(spec, dict)` on a parsed JSON value. -/
def isObj : Json → Bool
  | .obj _ => true
  | _ => false

/-- The scan loop of `extract_detach_directive`: `before` holds the lines
already passed over (`lines[:i]`), `raw` the whole input.  At the sentinel,
blank lines are skipped (`while j < len(lines) and not lines[j].strip()`),
the next line is parsed, and on a successful object parse the cleaned text
is the remaining lines rejoined with newlines and stripped. -/
def extractScan (raw : String) : List String → List String → Option Json × String
  | _, [] => (none, pyStrip raw)
  | before, line :: rest =>
      if isSentinel line then
        match rest.dropWhile (fun l => (pyStrip l).isEmpty) with
        | [] => (none, raw)
        | jline :: tail =>
            match pyJsonLoads jline with
            | none => (none, raw)
            | some spec =>
                if isObj spec then
                  (some spec, pyStrip (String.intercalate "\n" (before ++ tail)))
                else (none, raw)
      else extractScan raw (before ++ [line]) rest

/-- `extract_detach_directive(text)`.  (`raw = text or ""` equals `text`
for every string, the empty string included.) -/
def extract_detach_directive (text : String) : Option Json × String :=
  extractScan text [] (pySplitlines text)

/-! ## Reply dispatch after a job run (`src/tgcourier/queue.py`, lines
320-356 of `QueueManager._run_job`)

The tail of `_run_job` is modelled as a pure function from the agent reply
to the list of externally visible effects it performs, in order: history
appends (`store.append`), outgoing sends (`send_chat`) and background-job
launches (`self._bg.start`).  `bgJobId` and `logPath` stand for the job id
and log path the supervisor assigns to the launched job; they only feed the
launch announcement message. -/

inductive Effect where
  | histAppend (role text : String)
  | send (text : String)
  | bgStart (title : String) (cmd : List String) (cwd : String)
deriving DecidableEq, Repr

mutual
/-- CPython `repr` of a JSON-shaped value (`None` / `True` / `False`, ints,
lists and dicts).  String repr is modelled as plain single quoting; the
escaping CPython applies inside the quotes is outside the model (the result
only ever feeds announcement text no claim inspects). -/
def pyReprVal : Json → String
  | .null => "None"
  | .bool true => "True"
  | .bool false => "False"
  | .num n => ⟨intToChars n⟩
  | .str s => "\x27" ++ s ++ "\x27"
  | .arr xs => "[" ++ pyReprList xs ++ "]"
  | .obj kvs => "\x7b" ++ pyReprFields kvs ++ "\x7d"

def pyReprList : List Json → String
  | [] => ""
  | [x] => pyReprVal x
  | x :: xs => pyReprVal x ++ ", " ++ pyReprList xs

def pyReprFields : List (String × Json) → String
  | [] => ""
  | [(k, v)] => "\x27" ++ k ++ "\x27: " ++ pyReprVal v
  | (k, v) :: kvs => "\x27" ++ k ++ "\x27: " ++ pyReprVal v ++ ", " ++ pyReprFields kvs
end

/-- Python `str(x)` on a JSON-shaped value. -/
def pyStrVal (j : Json) : String :=
  match j with
  | .str s => s
  | _ => pyReprVal j

/-- The `cmd` computation: `detach_spec.get("cmd")` must be a string with
non-blank strip (then `cmd = ["/bin/zsh", "-lc", cmd_obj.strip()]`) or a
list all of whose members are strings with non-blank strip (then the list
itself; the `str(x)` coercion is the identity on the strings the guard
admits).  `none` models falling into the `else` diagnostic branch. -/
def detachCmd (spec : Json) : Option (List String) :=
  match dictGet spec "cmd" with
  | some (.str s) =>
      if (pyStrip s).isEmpty then none
      else some ["/bin/zsh", "-lc", pyStrip s]
  | some (.arr xs) =>
      if xs.all (fun x => match x with | .str t => !(pyStrip t).isEmpty | _ => false)
      then some (xs.map (fun x => match x with | .str t => t | _ => ""))
      else none
  | _ => none

/-- `title = str(detach_spec.get("title") or "").strip() or "Detached job"`. -/
def detachTitle (spec : Json) : String :=
  let v := match dictGet spec "title" with
    | some w => if pyTruthy w then w else .str ""
    | none => .str ""
  let t := pyStrip (pyStrVal v)
  if t.isEmpty then "Detached job" else t

/-- `Path.expanduser()` on the model of paths as strings: a leading `~`
component is replaced by the home directory. -/
def pyExpanduser (home s : String) : String :=
  if s = "~" then home
  else if s.startsWith "~/" then home ++ s.drop 1
  else s

/-- `Path.is_absolute()` on POSIX. -/
def pyIsAbsolute (p : String) : Bool :=
  p.startsWith "/"

/-- `cwd_raw = detach_spec.get("cwd")`; a string with non-blank strip is
expanded and, unless absolute, joined under `settings.agent_workdir`;
anything else leaves `cwd = settings.agent_workdir`. -/
def resolveCwd (agentWorkdir home : String) (spec : Json) : String :=
  match dictGet spec "cwd" with
  | some (.str s) =>
      if (pyStrip s).isEmpty then agentWorkdir
      else
        let p := pyExpanduser home s
        if pyIsAbsolute p then p else agentWorkdir ++ "/" ++ p
  | _ => agentWorkdir

/-- The diagnostic of the malformed-`cmd` branch. -/
def badDetachMsg : String :=
  "Bad DETACH directive: missing cmd (string or string list)."

/-- The launch announcement
`f"Launched background job #\x7bbg_job.job_id\x7d. \x7btitle\x7d..."`. -/
def launchMsg (bgJobId : Nat) (logPath title : String) : String :=
  let i : String := ⟨natToChars bgJobId⟩
  "Launched background job #" ++ i ++ ". " ++ title ++
  "\nLog: " ++ logPath ++
  "\nUse /jobs, /job " ++ i ++ ", /job_tail " ++ i ++ ", /job_cancel " ++ i ++ "."

/-- Lines 320-356 of `QueueManager._run_job`: extract the directive, and
either launch (`if detach_spec:` with a valid `cmd`), emit the diagnostic
(truthy spec, invalid `cmd`), or fall through to the normal reply path
(`detach_spec` is `None` or the falsy empty dict). -/
def handleReply (reply : String) (bgJobId : Nat)
    (logPath agentWorkdir home : String) : List Effect :=
  match extract_detach_directive reply with
  | (some spec, cleaned) =>
      if pyTruthy spec then
        match detachCmd spec with
        | some cmd =>
            let title := detachTitle spec
            let cwd := resolveCwd agentWorkdir home spec
            let msg0 := launchMsg bgJobId logPath title
            let msg := if cleaned.isEmpty then msg0
                       else pyStrip cleaned ++ "\n\n" ++ msg0
            [.bgStart title cmd cwd, .histAppend "assistant" msg, .send msg]
        | none => [.histAppend "assistant" badDetachMsg, .send badDetachMsg]
      else [.histAppend "assistant" reply, .send reply]
  | (none, _) => [.histAppend "assistant" reply, .send reply]

/-- The reply of the C4 counterexample: a detach directive whose spec is the
empty object, so `cmd` is missing. -/
def c4Reply : String := "TG_COURIER_TOOL: DETACH\n\x7b\x7d"

/-- The reply of the C4 witness: a truthy spec (it has a title) still
missing `cmd`. -/
def c4WitnessReply : String := "TG_COURIER_TOOL: DETACH\n\x7b\"title\": \"x\"\x7d"

/-- The spec `extract_detach_directive` finds in `c4WitnessReply`. -/
def c4WitnessSpec : Json := .obj [("title", .str "x")]

/-! ## The claim command (`src/tgcourier/handlers.py`, `cmd_claim`, and
`src/tgcourier/state.py`, `get_claimed_user_id` / `set_claimed_user_id`)

`cmd_claim` is modelled as a pure function on the persisted document (the
dict `StateStore.load` returns, as an insertion-ordered field list) and the
update, returning the new document and the reply text.  The whole
check-then-set path runs without an intervening `await` (the uncontended
`state_lock` fast path does not yield), so one call is one atomic step. -/

structure ClaimSettings where
  allowed_user_id : Option Int
  allowed_username : Option String
  claim_code : Option String
deriving Repr

structure ClaimUpdate where
  args : List String
  effective_user : Option Int
deriving Repr

/-- `StateStore.get_claimed_user_id`:
`int(v) if isinstance(v, int) else None` — Python `bool` is a subtype of
`int`, so `True`/`False` read back as `1`/`0`. -/
def get_claimed_user_id (data : List (String × Json)) : Option Int :=
  match assocGet data "claimed_user_id" with
  | some (.num n) => some n
  | some (.bool b) => some (if b then 1 else 0)
  | _ => none

/-- `StateStore.set_claimed_user_id`: `data["claimed_user_id"] = int(user_id)`. -/
def set_claimed_user_id (data : List (String × Json)) (user_id : Int) :
    List (String × Json) :=
  dictSet data "claimed_user_id" (.num user_id)

/-- `if not settings.claim_code:` — `None` and the empty string are falsy. -/
def claimCodeTruthy : Option String → Bool
  | some c => !c.isEmpty
  | none => false

/-- `cmd_claim`: the guard chain of lines 131-153 followed by the locked
check-then-set, returning the updated document and the reply text sent. -/
def cmd_claim (s : ClaimSettings) (data : List (String × Json))
    (u : ClaimUpdate) : List (String × Json) × String :=
  if s.allowed_user_id.isSome || s.allowed_username.isSome then
    (data, "Already locked via TELEGRAM_ALLOWED_USER_ID/USERNAME.")
  else if !claimCodeTruthy s.claim_code then
    (data, "Claim disabled (missing TELEGRAM_CLAIM_CODE).")
  else
    match get_claimed_user_id data with
    | some current =>
        (data, "Already claimed by user_id " ++ ⟨intToChars current⟩ ++ ".")
    | none =>
        match u.args with
        | [] => (data, "Usage: /claim <code>")
        | a0 :: _ =>
            if some a0 ≠ s.claim_code then (data, "Bad claim code.")
            else
              match u.effective_user with
              | none => (data, "No user found on update.")
              | some uid =>
                  (set_claimed_user_id data uid,
                   "Claimed. allowed_user_id=" ++ ⟨intToChars uid⟩)

/-- A sequence of `/claim` invocations, threading the persisted document. -/
def runClaims (s : ClaimSettings) (data : List (String × Json))
    (us : List ClaimUpdate) : List (String × Json) :=
  us.foldl (fun d u => (cmd_claim s d u).1) data

/-- Settings of the C8 witness: claiming open with code `c`. -/
def c8Settings : ClaimSettings := ⟨none, none, some "c"⟩

/-- Document of the C8 witness: the fields of the fresh empty document,
nothing claimed yet. -/
def c8Doc : List (String × Json) :=
  [("version", .num 1), ("claimed_user_id", .null), ("chats", .obj [])]

/-- The first claim attempt of the C8 witness: right code, user 5. -/
def c8First : ClaimUpdate := ⟨["c"], some 5⟩

/-- A later claim attempt of the C8 witness, also with the right code. -/
def c8Update : ClaimUpdate := ⟨["c"], some 7⟩

/-- Text of the C9 witness: the sentinel followed by a non-JSON line. -/
def c9Text : String := "TG_COURIER_TOOL: DETACH\nnope"

/-! ## Theorems -/

theorem assocGet_assocUpsert {α β : Type} [DecidableEq α]
    (l : List (α × β)) (k : α) (g : Option β → β) (k' : α) :
    assocGet (assocUpsert l k g) k'
      = if k' = k then some (g (assocGet l k)) else assocGet l k' := by
  induction l with
  | nil =>
      by_cases h : k' = k
      · subst h; simp [assocUpsert, assocGet]
      · rw [if_neg h]
        simp only [assocUpsert, assocGet]
        rw [if_neg (fun hc => h hc.symm)]
  | cons kv rest ih =>
      obtain ⟨k0, v⟩ := kv
      by_cases h0 : k0 = k
      · subst h0
        by_cases h' : k0 = k'
        · subst h'
          simp [assocUpsert, assocGet]
        · rw [if_neg (fun hc => h' hc.symm)]
          simp only [assocUpsert, if_pos rfl, assocGet]
          rw [if_neg h', if_neg h']
      · by_cases h' : k0 = k'
        · subst h'
          rw [if_neg h0]
          simp [assocUpsert, if_neg h0, assocGet]
        · simp only [assocUpsert, if_neg h0, assocGet, if_neg h']
          exact ih

theorem assocGet_jobsUpdate (l : List (Nat × BgJob)) (i : Nat)
    (f : BgJob → BgJob) (i' : Nat) :
    assocGet (jobsUpdate l i f) i'
      = if i' = i then (assocGet l i').map f else assocGet l i' := by
  induction l with
  | nil => by_cases h : i' = i <;> simp [jobsUpdate, assocGet, h]
  | cons kv rest ih =>
      obtain ⟨i0, j0⟩ := kv
      simp only [jobsUpdate, assocGet]
      by_cases h' : i0 = i'
      · subst h'
        rw [if_pos rfl, if_pos rfl]
        by_cases h0 : i0 = i
        · subst h0; rw [if_pos rfl, if_pos rfl]; rfl
        · rw [if_neg h0, if_neg h0]
      · rw [if_neg h', if_neg h', ih]

theorem bgInv_fresh (dir : String) : BgInv (BgJobManager.fresh dir) := by
  refine ⟨?_, ?_, ?_⟩ <;>
    simp [BgJobManager.fresh, BgJobManager.chatIds, assocGet]

theorem bgInv_step {m m' : BgJobManager} (hm : BgInv m) (h : BgStep m m') :
    BgInv m' := by
  obtain ⟨chain, lt, present⟩ := hm
  cases h with
  | start chat_id title cmd cwd now =>
      have hids : ∀ c', (m.start chat_id title cmd cwd now).2.chatIds c'
          = if c' = chat_id then m.chatIds c' ++ [m.next_id]
            else m.chatIds c' := by
        intro c'
        simp only [BgJobManager.start, BgJobManager.chatIds]
        rw [assocGet_assocUpsert]
        by_cases hc : c' = chat_id
        · rw [if_pos hc, if_pos hc, hc]
          rfl
        · rw [if_neg hc, if_neg hc]
      have hget : ∀ i', (m.start chat_id title cmd cwd now).2.get i'
          = if i' = m.next_id
            then some (m.start chat_id title cmd cwd now).1
            else m.get i' := by
        intro i'
        simp only [BgJobManager.start, BgJobManager.get]
        rw [assocGet_assocUpsert]
      refine ⟨?_, ?_, ?_⟩
      · intro c'
        rw [hids c']
        by_cases hc : c' = chat_id
        · rw [if_pos hc]
          refine List.Chain'.append (chain c') (by simp) ?_
          intro x hx y hy
          simp only [List.head?_cons, Option.mem_def, Option.some.injEq] at hy
          subst hy
          exact lt c' x (List.mem_of_mem_getLast? hx)
        · rw [if_neg hc]; exact chain c'
      · intro c' i hi
        rw [hids c'] at hi
        simp only [BgJobManager.start] at *
        by_cases hc : c' = chat_id
        · rw [if_pos hc] at hi
          rcases List.mem_append.mp hi with hi | hi
          · exact Nat.lt_succ_of_lt (lt c' i hi)
          · simp only [List.mem_singleton] at hi
            subst hi
            exact Nat.lt_succ_self _
        · rw [if_neg hc] at hi
          exact Nat.lt_succ_of_lt (lt c' i hi)
      · intro c' i hi
        rw [hids c'] at hi
        by_cases hc : c' = chat_id
        · rw [if_pos hc] at hi
          rcases List.mem_append.mp hi with hi | hi
          · have hlt := lt c' i hi
            obtain ⟨j, hj, hjid⟩ := present c' i hi
            refine ⟨j, ?_, hjid⟩
            rw [hget i, if_neg (Nat.ne_of_lt hlt)]
            exact hj
          · simp only [List.mem_singleton] at hi
            subst hi
            exact ⟨_, by rw [hget m.next_id, if_pos rfl], rfl⟩
        · rw [if_neg hc] at hi
          have hlt := lt c' i hi
          obtain ⟨j, hj, hjid⟩ := present c' i hi
          refine ⟨j, ?_, hjid⟩
          rw [hget i, if_neg (Nat.ne_of_lt hlt)]
          exact hj
  | run i f hf =>
      have hget : ∀ i', ({ m with jobs := jobsUpdate m.jobs i f }).get i'
          = if i' = i then (m.get i').map f else m.get i' := by
        intro i'
        simpa [BgJobManager.get] using assocGet_jobsUpdate m.jobs i f i'
      refine ⟨chain, lt, ?_⟩
      intro c' i' hi'
      obtain ⟨j, hj, hjid⟩ := present c' i' hi'
      by_cases hii : i' = i
      · subst hii
        refine ⟨f j, ?_, ?_⟩
        · rw [hget i', if_pos rfl, hj]; rfl
        · rw [hf j]; exact hjid
      · exact ⟨j, by rw [hget i', if_neg hii]; exact hj, hjid⟩

theorem bgInv_reach {m : BgJobManager} (h : BgReach m) : BgInv m := by
  obtain ⟨dir, h⟩ := h
  induction h with
  | refl => exact bgInv_fresh dir
  | tail _ hstep ih => exact bgInv_step ih hstep

theorem filterMap_get_ids (m : BgJobManager) (l : List Nat)
    (h : ∀ i ∈ l, ∃ j, m.get i = some j ∧ j.job_id = i) :
    (l.filterMap m.get).map BgJob.job_id = l := by
  induction l with
  | nil => simp
  | cons i rest ih =>
      obtain ⟨j, hj, hjid⟩ := h i (List.mem_cons_self i rest)
      simp only [List.filterMap_cons, hj, List.map_cons, hjid]
      rw [ih (fun i' hi' => h i' (List.mem_cons_of_mem i hi'))]

/-- Claim C3, corrected: `cancel` returns true precisely when the job is
known, its process has started, has no recorded exit code yet, and the OS
process can still be signalled — regardless of how many cancel requests were
already issued for it.  It returns false whenever the job id is unknown or
the job's process has finished. -/
theorem cancel_true_iff (m : BgJobManager) (job_id : Nat) :
    m.cancel job_id = true ↔
      ∃ job p, m.get job_id = some job ∧ job.proc = some p ∧
        p.returncode = none ∧ p.osAlive = true := by
  unfold BgJobManager.cancel
  cases hg : m.get job_id with
  | none => simp [hg]
  | some job =>
      cases hp : job.proc with
      | none => simp [hp]
      | some p =>
          cases hrc : p.returncode with
          | none => simp [hp, hrc]
          | some rc => simp [hp, hrc]

/-- Counterexample to claim C3 as frozen: two consecutive cancel requests for
the same still-running background job both return true (the first `cancel`
mutates no registry or process state before returning, so the second call
observes the same state), so `cancel` does not return true exactly once over
the calls made while the job runs. -/
theorem cancel_twice_both_true :
    cancelCalls c3Sample [1, 1] = [true, true] := rfl

/-- Claim C10: `list_for_chat` clamps every limit below 1 (zero or negative)
to 1 — returning the single most recently created job instead of an empty
list — and for limits ≥ 1 returns at most `limit` jobs, most recently
created first (strictly decreasing job ids, which are assigned in creation
order). -/
theorem list_for_chat_clamps (m : BgJobManager) (hm : BgReach m)
    (chat_id : Int) (limit : Int) :
    (m.list_for_chat chat_id limit).length ≤ (max 1 limit).toNat ∧
    List.Chain' (· > ·)
      ((m.list_for_chat chat_id limit).map BgJob.job_id) ∧
    (limit < 1 → m.list_for_chat chat_id limit = m.list_for_chat chat_id 1) ∧
    (limit < 1 → m.chatIds chat_id ≠ [] →
      ∃ j, m.list_for_chat chat_id limit = [j] ∧
        (m.chatIds chat_id).getLast? = some j.job_id) := by
  obtain ⟨chain, _, present⟩ := bgInv_reach hm
  have hids : ∀ n : Nat,
      ((((m.chatIds chat_id).reverse).take n).filterMap m.get).map BgJob.job_id
        = ((m.chatIds chat_id).reverse).take n := by
    intro n
    refine filterMap_get_ids m _ (fun i hi => present chat_id i ?_)
    exact List.mem_reverse.mp (List.mem_of_mem_take hi)
  refine ⟨?_, ?_, ?_, ?_⟩
  · have := congrArg List.length (hids (max 1 limit).toNat)
    simp only [List.length_map] at this
    calc (m.list_for_chat chat_id limit).length
        = (((m.chatIds chat_id).reverse).take (max 1 limit).toNat).length := this
      _ ≤ (max 1 limit).toNat := List.length_take_le _ _
  · rw [BgJobManager.list_for_chat, hids]
    have hrev : List.Chain' (· > ·) ((m.chatIds chat_id).reverse) := by
      rw [List.chain'_reverse]
      exact chain chat_id
    exact hrev.take _
  · intro hlim
    have h1 : max 1 limit = 1 := max_eq_left (le_of_lt hlim)
    simp [BgJobManager.list_for_chat, h1]
  · intro hlim hne
    have h1 : max 1 limit = 1 := max_eq_left (le_of_lt hlim)
    have hrevne : (m.chatIds chat_id).reverse ≠ [] := by
      simpa using hne
    obtain ⟨i, rest, hcons⟩ := List.exists_cons_of_ne_nil hrevne
    have htake : ((m.chatIds chat_id).reverse).take (max 1 limit).toNat
        = [i] := by
      rw [h1, hcons]; rfl
    have hi_mem : i ∈ m.chatIds chat_id := by
      rw [← List.mem_reverse, hcons]
      exact List.mem_cons_self _ _
    obtain ⟨j, hj, hjid⟩ := present chat_id i hi_mem
    refine ⟨j, ?_, ?_⟩
    · simp only [BgJobManager.list_for_chat]
      rw [htake]
      simp [List.filterMap_cons, hj]
    · rw [← List.head?_reverse, hcons]
      simp [hjid]

/-- Witness for C10 at a concrete reachable registry (two jobs for chat 7)
with the out-of-range limit 0. -/
theorem list_for_chat_clamps_app :
    BgReach c10Sample ∧
    ((c10Sample.list_for_chat 7 0).length ≤ (max 1 (0 : Int)).toNat ∧
     List.Chain' (· > ·) ((c10Sample.list_for_chat 7 0).map BgJob.job_id) ∧
     ((0 : Int) < 1 → c10Sample.list_for_chat 7 0 = c10Sample.list_for_chat 7 1) ∧
     ((0 : Int) < 1 → c10Sample.chatIds 7 ≠ [] →
       ∃ j, c10Sample.list_for_chat 7 0 = [j] ∧
         (c10Sample.chatIds 7).getLast? = some j.job_id)) := by
  have h1 : BgStep (BgJobManager.fresh "d")
      ((BgJobManager.fresh "d").start 7 "a" ["x"] "." 1).2 :=
    BgStep.start (BgJobManager.fresh "d") 7 "a" ["x"] "." 1
  have h2 : BgStep ((BgJobManager.fresh "d").start 7 "a" ["x"] "." 1).2
      c10Sample :=
    BgStep.start ((BgJobManager.fresh "d").start 7 "a" ["x"] "." 1).2
      7 "b" ["y"] "." 2
  have hr : BgReach c10Sample :=
    ⟨"d", Relation.ReflTransGen.head h1 (Relation.ReflTransGen.single h2)⟩
  exact ⟨hr, list_for_chat_clamps c10Sample hr 7 0⟩

theorem queueInv_init : QueueInv ChatQueue.init := by
  constructor <;> simp [ChatQueue.init]

theorem queueInv_enq {s : ChatQueue} (hs : QueueInv s) (j : Job)
    (hj : j.job_id = s.next_id) (ph : WorkerPhase) :
    QueueInv { s with next_id := s.next_id + 1, queue := s.queue ++ [j],
                      phase := ph, enqueued := s.enqueued ++ [j] } := by
  obtain ⟨hist, ids, lt⟩ := hs
  refine ⟨?_, ?_, ?_⟩
  · simpa [← List.append_assoc] using hist.append (List.Sublist.refl [j])
  · simp only [List.map_append]
    refine List.Chain'.append ids (by simp) ?_
    intro x hx y hy
    simp only [List.map_cons, List.map_nil, List.head?_cons,
      Option.mem_def, Option.some.injEq] at hy
    obtain ⟨a, ha, rfl⟩ := List.exists_of_mem_map (List.mem_of_mem_getLast? hx)
    subst hy
    rw [hj]
    exact lt a ha
  · intro a ha
    simp only [List.mem_append, List.mem_singleton] at ha
    rcases ha with ha | rfl
    · exact Nat.lt_succ_of_lt (lt a ha)
    · exact hj ▸ Nat.lt_succ_self _

theorem queueInv_step {s s' : ChatQueue} (hs : QueueInv s) (h : Step s s') :
    QueueInv s' := by
  obtain ⟨hist, ids, lt⟩ := hs
  cases h with
  | enqText t now => exact queueInv_enq ⟨hist, ids, lt⟩ _ rfl _
  | enqAudio c now => exact queueInv_enq ⟨hist, ids, lt⟩ _ rfl _
  | pop j rest hph hq =>
      refine ⟨?_, ids, lt⟩
      simpa [← hq, List.append_assoc] using hist
  | exitEmpty hph hq => exact ⟨hist, ids, lt⟩
  | finish j hph => exact ⟨hist, ids, lt⟩
  | crash j hph => exact ⟨hist, ids, lt⟩
  | drop =>
      refine ⟨?_, ids, lt⟩
      simp only [drop_pending, List.append_nil]
      exact (List.sublist_append_left _ _).trans hist
  | cancel =>
      refine ⟨?_, ids, lt⟩
      simp only [List.append_nil]
      exact (List.sublist_append_left _ _).trans hist

theorem queueInv_reach {s : ChatQueue} (h : Reach s) : QueueInv s := by
  induction h with
  | refl => exact queueInv_init
  | tail _ hstep ih => exact queueInv_step ih hstep

/-- Claim C1: for every session and every sequence of enqueue operations,
jobs begin execution in exactly the order they were enqueued (the ghost list
of started jobs is an order-preserving sublist of the ghost list of enqueued
jobs, whose ids strictly increase and are never reused), and at every instant
at most one job of the session is executing. -/
theorem enqueue_order_and_single_current (s : ChatQueue) (h : Reach s) :
    s.started.Sublist s.enqueued ∧
    List.Chain' (· < ·) (s.enqueued.map Job.job_id) ∧
    s.executing ≤ 1 := by
  obtain ⟨hist, ids, _⟩ := queueInv_reach h
  refine ⟨(List.sublist_append_left _ _).trans hist, ids, ?_⟩
  unfold ChatQueue.executing
  cases s.phase <;> simp

/-- Witness for C1 at a concrete reachable state: enqueue two texts, pop the
first. -/
theorem enqueue_order_and_single_current_app :
    Reach c1Sample ∧
    (c1Sample.started.Sublist c1Sample.enqueued ∧
     List.Chain' (· < ·) (c1Sample.enqueued.map Job.job_id) ∧
     c1Sample.executing ≤ 1) := by
  have h1 : Step ChatQueue.init (enqueue_text ChatQueue.init "A" 5).2 :=
    Step.enqText ChatQueue.init "A" 5
  have h2 : Step (enqueue_text ChatQueue.init "A" 5).2
      (enqueue_text (enqueue_text ChatQueue.init "A" 5).2 "B" 6).2 :=
    Step.enqText _ "B" 6
  have h3 : Step (enqueue_text (enqueue_text ChatQueue.init "A" 5).2 "B" 6).2
      c1Sample := by
    have := Step.pop
      (enqueue_text (enqueue_text ChatQueue.init "A" 5).2 "B" 6).2
      { job_id := 1, kind := .text, payload := "A", created_ms := 5 }
      [{ job_id := 2, kind := .text, payload := "B", created_ms := 6 }]
      (by rfl) (by rfl)
    simpa [c1Sample, enqueue_text, ChatQueue.init] using this
  have hr : Reach c1Sample :=
    Relation.ReflTransGen.head h1 (Relation.ReflTransGen.head h2
      (Relation.ReflTransGen.single h3))
  exact ⟨hr, enqueue_order_and_single_current _ hr⟩

/-- Claim C7: `drop_pending` on a session with `N` pending jobs removes
exactly those `N` queued-but-not-started jobs and returns `N`, while the
current in-flight job, the job-id counter, the worker phase and the ghost
histories are all left unchanged. -/
theorem drop_pending_frame (s : ChatQueue) :
    (drop_pending s).1 = s.queue.length ∧
    (drop_pending s).2.queue = [] ∧
    (drop_pending s).2.current = s.current ∧
    (drop_pending s).2.next_id = s.next_id ∧
    (drop_pending s).2.phase = s.phase ∧
    (drop_pending s).2.started = s.started ∧
    (drop_pending s).2.enqueued = s.enqueued := by
  simp [drop_pending]

/-! ### Character and digit facts -/

theorem char_toNat_inj {c d : Char} (h : c.toNat = d.toNat) : c = d :=
  Char.eq_of_val_eq (UInt32.toNat.inj h)

theorem toNat_ofNat_valid {n : Nat} (h : n < 0xd800) :
    (Char.ofNat n).toNat = n := by
  rw [Char.ofNat, dif_pos (Or.inl h)]
  rfl

theorem ofNatAux_eq {c : Char} {n : Nat} (hv : n.isValidChar)
    (hc : c.toNat = n) : Char.ofNatAux n hv = c :=
  char_toNat_inj (show (Char.ofNatAux n hv).toNat = c.toNat from by
    have : (Char.ofNatAux n hv).toNat = n := rfl
    rw [this, hc])

theorem natToChars_ne_nil (n : Nat) : natToChars n ≠ [] := by
  rw [natToChars]
  split <;> simp

theorem isDigit_of_toNat {c : Char} (h1 : 48 ≤ c.toNat) (h2 : c.toNat ≤ 57) :
    c.isDigit = true := by
  simp only [Char.isDigit, Bool.and_eq_true, decide_eq_true_eq]
  exact ⟨h1, h2⟩

theorem toNat_of_isDigit {c : Char} (h : c.isDigit = true) :
    48 ≤ c.toNat ∧ c.toNat ≤ 57 := by
  simpa only [Char.isDigit, Bool.and_eq_true, decide_eq_true_eq] using h

theorem natToChars_all_digit (n : Nat) :
    ∀ c ∈ natToChars n, c.isDigit = true := by
  induction n using Nat.strong_induction_on with
  | _ n ih =>
    rw [natToChars]
    split
    · next h =>
        intro c hc
        simp only [List.mem_singleton] at hc
        subst hc
        have ht := toNat_ofNat_valid (show 48 + n < 0xd800 by omega)
        exact isDigit_of_toNat (by omega) (by omega)
    · next h =>
        intro c hc
        rcases List.mem_append.mp hc with hc | hc
        · exact ih (n / 10)
            (Nat.div_lt_self (by omega) (by omega)) c hc
        · simp only [List.mem_singleton] at hc
          subst hc
          have ht := toNat_ofNat_valid (show 48 + n % 10 < 0xd800 by omega)
          have h10 : n % 10 < 10 := Nat.mod_lt _ (by omega)
          exact isDigit_of_toNat (by omega) (by omega)

theorem digitsVal_append (l : List Char) (d : Char) :
    digitsVal (l ++ [d]) = digitsVal l * 10 + (d.toNat - 48) := by
  simp [digitsVal, List.foldl_append]

theorem digitsVal_natToChars (n : Nat) : digitsVal (natToChars n) = n := by
  induction n using Nat.strong_induction_on with
  | _ n ih =>
    rw [natToChars]
    split
    · next h =>
        simp [digitsVal, toNat_ofNat_valid (show 48 + n < 0xd800 by omega)]
    · next h =>
        rw [digitsVal_append, ih (n / 10) (Nat.div_lt_self (by omega) (by omega)),
          toNat_ofNat_valid (show 48 + n % 10 < 0xd800 by omega)]
        omega

theorem natToChars_head_cons (n : Nat) :
    ∃ c cs, natToChars n = c :: cs ∧ c.isDigit = true ∧ (1 ≤ n → c ≠ '0') := by
  induction n using Nat.strong_induction_on with
  | _ n ih =>
    rw [natToChars]
    split
    · next h =>
        refine ⟨Char.ofNat (48 + n), [], rfl, ?_, ?_⟩
        · have ht := toNat_ofNat_valid (show 48 + n < 0xd800 by omega)
          exact isDigit_of_toNat (by omega) (by omega)
        · intro h1 hz
          have := congrArg Char.toNat hz
          rw [toNat_ofNat_valid (show 48 + n < 0xd800 by omega)] at this
          have h0 : ('0' : Char).toNat = 48 := rfl
          rw [h0] at this
          omega
    · next h =>
        obtain ⟨c, cs, hcons, hdig, hz⟩ :=
          ih (n / 10) (Nat.div_lt_self (by omega) (by omega))
        refine ⟨c, cs ++ [Char.ofNat (48 + n % 10)], by rw [hcons]; rfl, hdig, ?_⟩
        intro _
        exact hz (by omega)

/-! ### Number-token completeness -/

theorem takeWhile_append_all {p : Char → Bool} {l : List Char}
    (r : List Char) (hl : ∀ c ∈ l, p c = true) :
    (l ++ r).takeWhile p = l ++ r.takeWhile p := by
  induction l with
  | nil => rfl
  | cons c cs ih =>
      have hc := hl c (List.mem_cons_self c cs)
      simp only [List.cons_append, List.takeWhile_cons, hc, if_true]
      rw [ih (fun x hx => hl x (List.mem_cons_of_mem c hx))]

theorem dropWhile_append_all {p : Char → Bool} {l : List Char}
    (r : List Char) (hl : ∀ c ∈ l, p c = true) :
    (l ++ r).dropWhile p = r.dropWhile p := by
  induction l with
  | nil => rfl
  | cons c cs ih =>
      have hc := hl c (List.mem_cons_self c cs)
      simp only [List.cons_append, List.dropWhile_cons, hc, if_true]
      exact ih (fun x hx => hl x (List.mem_cons_of_mem c hx))

theorem delim_not_digit {cs : List Char} (h : Delim cs) :
    cs.takeWhile Char.isDigit = [] ∧ cs.dropWhile Char.isDigit = cs := by
  cases cs with
  | nil => simp
  | cons c r =>
      have hd : c.isDigit = false := by
        rcases h with h | h | h | h <;> subst h <;> rfl
      simp [List.takeWhile_cons, List.dropWhile_cons, hd]

theorem delim_headFloat {cs : List Char} (h : Delim cs) :
    headFloat cs = false := by
  cases cs with
  | nil => rfl
  | cons c r =>
      rcases h with h | h | h | h <;> subst h <;> rfl

theorem parseUInt_natToChars (n : Nat) (rest : List Char) (hr : Delim rest) :
    parseUInt (natToChars n ++ rest) = some (n, rest) := by
  obtain ⟨htake, hdrop⟩ := delim_not_digit hr
  by_cases h0 : n = 0
  · subst h0
    have : natToChars 0 = ['0'] := by rw [natToChars]; rfl
    rw [this]
    simp [parseUInt]
  · obtain ⟨c, cs, hcons, hdig, hz⟩ := natToChars_head_cons n
    have hz' : c ≠ '0' := hz (by omega)
    have hall : ∀ x ∈ cs, x.isDigit = true := by
      intro x hx
      exact natToChars_all_digit n x (by rw [hcons]; exact List.mem_cons_of_mem c hx)
    rw [hcons, List.cons_append]
    simp only [parseUInt, if_neg hz', hdig, if_true]
    rw [takeWhile_append_all rest hall, htake, dropWhile_append_all rest hall,
      hdrop, List.append_nil]
    have : digitsVal (c :: cs) = n := by rw [← hcons]; exact digitsVal_natToChars n
    rw [this]

theorem parseNum_intToChars (i : Int) (rest : List Char) (hr : Delim rest) :
    parseNum (intToChars i ++ rest) = some (i, rest) := by
  by_cases hneg : i < 0
  · have : intToChars i = '-' :: natToChars i.natAbs := by
      rw [intToChars, if_pos hneg]
    rw [this, List.cons_append]
    simp only [parseNum, if_pos rfl]
    rw [parseUInt_natToChars _ _ hr]
    simp only [delim_headFloat hr, Bool.false_eq_true, if_false, if_true,
      Option.some.injEq, Prod.mk.injEq]
    exact ⟨by omega, trivial⟩
  · have : intToChars i = natToChars i.toNat := by
      rw [intToChars, if_neg hneg]
    rw [this]
    obtain ⟨c, cs, hcons, hdig, _⟩ := natToChars_head_cons i.toNat
    have hcne : c ≠ '-' := by
      intro hc
      subst hc
      obtain ⟨h1, _⟩ := toNat_of_isDigit hdig
      revert h1
      decide
    rw [hcons, List.cons_append]
    simp only [parseNum, if_neg hcne]
    rw [← List.cons_append, ← hcons, parseUInt_natToChars _ _ hr]
    simp only [delim_headFloat hr, Bool.false_eq_true, if_false,
      Option.some.injEq, Prod.mk.injEq]
    exact ⟨by omega, trivial⟩

/-! ### String-literal completeness -/

theorem hexVal_hexDigitChar (d : Nat) (hd : d < 16) :
    hexVal (hexDigitChar d) = some d := by
  by_cases h10 : d < 10
  · have ht : (Char.ofNat (48 + d)).toNat = 48 + d :=
      toNat_ofNat_valid (by omega)
    rw [hexDigitChar, if_pos h10, hexVal,
      if_pos ⟨show 48 ≤ (Char.ofNat (48 + d)).toNat by omega,
              show (Char.ofNat (48 + d)).toNat ≤ 57 by omega⟩, ht]
    congr 1
    omega
  · have ht : (Char.ofNat (87 + d)).toNat = 87 + d :=
      toNat_ofNat_valid (by omega)
    rw [hexDigitChar, if_neg h10, hexVal]
    rw [if_neg (fun hc => by
      have h2 : (Char.ofNat (87 + d)).toNat ≤ 57 := hc.2
      omega)]
    rw [if_pos ⟨show 97 ≤ (Char.ofNat (87 + d)).toNat by omega,
                show (Char.ofNat (87 + d)).toNat ≤ 102 by omega⟩, ht]
    congr 1
    omega

theorem escapeChar_length_pos (c : Char) : 1 ≤ (escapeChar c).length := by
  unfold escapeChar
  split_ifs <;> simp

theorem length_le_escapeList (s : List Char) :
    s.length ≤ (escapeList s).length := by
  induction s with
  | nil => simp [escapeList]
  | cons c s ih =>
      have := escapeChar_length_pos c
      simp only [escapeList, List.length_cons, List.length_append]
      omega

theorem parseStringBody_escape (s : List Char) (rest : List Char) :
    ∀ fuel, s.length < fuel →
      parseStringBody fuel (escapeList s ++ ('"' :: rest)) = some (s, rest) := by
  induction s with
  | nil =>
      intro fuel hf
      cases fuel with
      | zero => omega
      | succ f =>
          rw [show escapeList [] = [] from rfl, List.nil_append,
            parseStringBody, if_pos rfl]
  | cons c s ih =>
    intro fuel hf
    cases fuel with
    | zero => omega
    | succ f =>
    have ihf := ih f (by simpa using Nat.lt_of_succ_lt_succ hf)
    show parseStringBody (f + 1)
        ((escapeChar c ++ escapeList s) ++ ('"' :: rest))
        = some (c :: s, rest)
    rw [List.append_assoc]
    by_cases h1 : c = '"'
    · subst h1
      simp only [escapeChar, Char.reduceEq, reduceIte, List.cons_append,
        List.nil_append, List.append_eq, parseStringBody, parseEscape,
        unescChar, ihf,
        Option.map_some, Option.map_some']
    · by_cases h2 : c = '\\'
      · subst h2
        simp only [escapeChar, Char.reduceEq, reduceIte, List.cons_append,
          List.nil_append, List.append_eq, parseStringBody, parseEscape,
        unescChar, ihf,
          Option.map_some, Option.map_some']
      · by_cases h3 : c = '\n'
        · subst h3
          simp only [escapeChar, Char.reduceEq, reduceIte, List.cons_append,
            List.nil_append, List.append_eq, parseStringBody, parseEscape,
        unescChar, ihf,
            Option.map_some, Option.map_some']
        · by_cases h4 : c = '\t'
          · subst h4
            simp only [escapeChar, Char.reduceEq, reduceIte, List.cons_append,
              List.nil_append, List.append_eq, parseStringBody, parseEscape,
        unescChar, ihf,
              Option.map_some, Option.map_some']
          · by_cases h5 : c = '\x0d'
            · subst h5
              simp only [escapeChar, Char.reduceEq, reduceIte,
                List.cons_append, List.nil_append, List.append_eq,
                parseStringBody, parseEscape, unescChar, ihf,
                Option.map_some, Option.map_some']
            · by_cases h6 : c = '\x08'
              · subst h6
                simp only [escapeChar, Char.reduceEq, reduceIte,
                  List.cons_append, List.nil_append, List.append_eq,
                  parseStringBody, parseEscape, unescChar, ihf,
                  Option.map_some, Option.map_some']
              · by_cases h7 : c = '\x0c'
                · subst h7
                  simp only [escapeChar, Char.reduceEq, reduceIte,
                    List.cons_append, List.nil_append, List.append_eq,
                    parseStringBody, parseEscape, unescChar, ihf,
                    Option.map_some, Option.map_some']
                · by_cases h8 : c.toNat < 0x20
                  · rw [escapeChar, if_neg h1, if_neg h2, if_neg h3, if_neg h4,
                      if_neg h5, if_neg h6, if_neg h7, if_pos h8]
                    have hdiv : c.toNat / 16 < 16 := by omega
                    have hmod : c.toNat % 16 < 16 := by omega
                    show parseStringBody (f + 1)
                        ('\\' :: 'u' :: '0' :: '0' :: hexDigitChar (c.toNat / 16)
                          :: hexDigitChar (c.toNat % 16)
                          :: (escapeList s ++ '"' :: rest))
                        = some (c :: s, rest)
                    have hn : ((0 * 16 + 0) * 16 + c.toNat / 16) * 16
                        + c.toNat % 16 = c.toNat := by omega
                    have hhex : hex4 '0' '0' (hexDigitChar (c.toNat / 16))
                        (hexDigitChar (c.toNat % 16)) = some c.toNat := by
                      rw [hex4, show hexVal '0' = some 0 from by decide,
                        hexVal_hexDigitChar _ hdiv, hexVal_hexDigitChar _ hmod]
                      exact congrArg some hn
                    have hvalid : (c.toNat).isValidChar := Or.inl (by omega)
                    have huni : uniChar c.toNat = some c := by
                      rw [uniChar, dif_pos hvalid, ofNatAux_eq hvalid rfl]
                    simp only [parseStringBody, parseEscape, parseUEsc,
                      Char.reduceEq, reduceIte, hhex, huni, ihf,
                      Option.map_some, Option.map_some']
                  · rw [escapeChar, if_neg h1, if_neg h2, if_neg h3, if_neg h4,
                      if_neg h5, if_neg h6, if_neg h7, if_neg h8]
                    show parseStringBody (f + 1)
                        (c :: (escapeList s ++ '"' :: rest))
                        = some (c :: s, rest)
                    simp only [parseStringBody, if_neg h1, if_neg h2,
                      if_neg h8, ihf, Option.map_some, Option.map_some']

/-! ### Whitespace, head-shape and size facts for the printed form -/

theorem skipWs_cons_ws {c : Char} (cs : List Char) (h : jsonWs c = true) :
    skipWs (c :: cs) = skipWs cs := by
  simp [skipWs, List.dropWhile_cons, h]

theorem skipWs_cons_not_ws {c : Char} (cs : List Char) (h : jsonWs c = false) :
    skipWs (c :: cs) = c :: cs := by
  simp [skipWs, List.dropWhile_cons, h]

theorem skipWs_replicate_space (n : Nat) (cs : List Char) :
    skipWs (List.replicate n ' ' ++ cs) = skipWs cs := by
  induction n with
  | zero => rfl
  | succ n ih =>
      rw [List.replicate_succ, List.cons_append,
        skipWs_cons_ws _ (by decide), ih]

theorem skipWs_indent (lvl : Nat) (cs : List Char) :
    skipWs (indentChars lvl ++ cs) = skipWs cs :=
  skipWs_replicate_space (2 * lvl) cs

theorem dumpsVal_head (j : Json) (lvl : Nat) :
    ∃ c cs, dumpsVal j lvl = c :: cs ∧ jsonWs c = false ∧
      c ≠ ']' ∧ c ≠ '}' := by
  suffices h : ∃ c cs, dumpsVal j lvl = c :: cs ∧
      (jsonWs c || c == ']' || c == '}') = false by
    obtain ⟨c, cs, hcons, hflags⟩ := h
    simp only [Bool.or_eq_false_iff, beq_eq_false_iff_ne] at hflags
    exact ⟨c, cs, hcons, hflags.1.1, hflags.1.2, hflags.2⟩
  cases j with
  | num n =>
      by_cases hneg : n < 0
      · exact ⟨'-', natToChars n.natAbs,
          by simp [dumpsVal, intToChars, hneg], rfl⟩
      · obtain ⟨c, cs, hcons, hdig, _⟩ := natToChars_head_cons n.toNat
        obtain ⟨hd1, hd2⟩ := toNat_of_isDigit hdig
        have hne : ∀ d : Char, d.toNat < 48 ∨ 57 < d.toNat → c ≠ d := by
          intro d hd hcd
          subst hcd
          omega
        have hws : jsonWs c = false := by
          simp [jsonWs, hne ' ' (Or.inl (by decide)),
                hne '\t' (Or.inl (by decide)), hne '\n' (Or.inl (by decide)),
                hne '\x0d' (Or.inl (by decide))]
        have hrb : (c == ']') = false := by
          simp [hne ']' (Or.inr (by decide))]
        have hcb : (c == '}') = false := by
          simp [hne '}' (Or.inr (by decide))]
        refine ⟨c, cs, by simp [dumpsVal, intToChars, hneg, hcons], ?_⟩
        simp [hws, hrb, hcb]
  | null => exact ⟨'n', _, rfl, rfl⟩
  | bool b =>
      rcases b with _ | _
      · exact ⟨'f', _, rfl, rfl⟩
      · exact ⟨'t', _, rfl, rfl⟩
  | str s => exact ⟨'"', _, rfl, rfl⟩
  | arr l => rcases l with _ | ⟨x, xs⟩ <;> exact ⟨'[', _, rfl, rfl⟩
  | obj l => rcases l with _ | ⟨kv, kvs⟩ <;> exact ⟨'{', _, rfl, rfl⟩

theorem skipWs_dumpsVal (j : Json) (lvl : Nat) (rest : List Char) :
    skipWs (dumpsVal j lvl ++ rest) = dumpsVal j lvl ++ rest := by
  obtain ⟨c, cs, hcons, hws, _, _⟩ := dumpsVal_head j lvl
  rw [hcons, List.cons_append, skipWs_cons_not_ws _ hws]

mutual
theorem sizeJ_le (j : Json) (lvl : Nat) : sizeJ j ≤ (dumpsVal j lvl).length := by
  cases j with
  | null => simp [sizeJ, dumpsVal]
  | bool b => cases b <;> simp [sizeJ, dumpsVal]
  | num n =>
      have := natToChars_ne_nil n.toNat
      have := natToChars_ne_nil n.natAbs
      simp only [sizeJ, dumpsVal, intToChars]
      split
      · simp only [List.length_cons]
        have : natToChars n.natAbs ≠ [] := natToChars_ne_nil n.natAbs
        omega
      · have : natToChars n.toNat ≠ [] := natToChars_ne_nil n.toNat
        have := List.length_pos.mpr this
        omega
  | str s => simp [sizeJ, dumpsVal, encodeString]
  | arr l =>
      cases l with
      | nil => simp [sizeJ, sizeL, dumpsVal]
      | cons x xs =>
          have h1 := sizeJ_le x (lvl + 1)
          have h2 := sizeL_le xs (lvl + 1)
          simp only [sizeJ, sizeL, dumpsVal, List.length_cons,
            List.length_append]
          omega
  | obj l =>
      cases l with
      | nil => simp [sizeJ, sizeF, dumpsVal]
      | cons kv kvs =>
          have h1 := sizeJ_le kv.2 (lvl + 1)
          have h2 := sizeF_le kvs (lvl + 1)
          simp only [sizeJ, sizeF, dumpsVal, List.length_cons,
            List.length_append]
          omega

theorem sizeL_le (l : List Json) (lvl : Nat) :
    sizeL l ≤ (dumpsItems l lvl).length := by
  cases l with
  | nil => simp [sizeL, dumpsItems]
  | cons x xs =>
      have h1 := sizeJ_le x lvl
      have h2 := sizeL_le xs lvl
      simp only [sizeL, dumpsItems, List.length_cons, List.length_append]
      omega

theorem sizeF_le (l : List (String × Json)) (lvl : Nat) :
    sizeF l ≤ (dumpsFields l lvl).length := by
  cases l with
  | nil => simp [sizeF, dumpsFields]
  | cons kv kvs =>
      have h1 := sizeJ_le kv.2 lvl
      have h2 := sizeF_le kvs lvl
      simp only [sizeF, dumpsFields, List.length_cons, List.length_append]
      omega
end

/-! ### Rebuilding an object from its printed members -/

theorem assocUpsert_absent {k : String} {l : List (String × Json)}
    (h : keyAbsent k l = true) (g : Option Json → Json) :
    assocUpsert l k g = l ++ [(k, g none)] := by
  induction l with
  | nil => rfl
  | cons kv rest ih =>
      simp only [keyAbsent, List.any_cons, Bool.not_or, Bool.and_eq_true,
        Bool.not_eq_true'] at h
      obtain ⟨h1, h2⟩ := h
      have hne : kv.1 ≠ k := by simpa using h1
      obtain ⟨k0, v0⟩ := kv
      simp only [assocUpsert, if_neg (by simpa using hne), List.cons_append]
      rw [ih (by simpa [keyAbsent] using h2)]

theorem buildFields_eq_append (ps : List (String × Json)) :
    ∀ acc, keysDistinct ps = true →
      (∀ kv ∈ ps, keyAbsent kv.1 acc = true) →
      buildFields acc ps = acc ++ ps := by
  induction ps with
  | nil => intro acc _ _; simp [buildFields]
  | cons p ps ih =>
      intro acc hd hab
      simp only [keysDistinct, Bool.and_eq_true] at hd
      obtain ⟨habs, hd2⟩ := hd
      have hstep : buildFields acc (p :: ps)
          = buildFields (assocUpsert acc p.1 (fun _ => p.2)) ps := rfl
      rw [hstep,
        assocUpsert_absent (hab p (List.mem_cons_self p ps)) (fun _ => p.2)]
      rw [ih _ hd2 ?_]
      · simp
      · intro kv hkv
        have h1 := hab kv (List.mem_cons_of_mem p hkv)
        simp only [keyAbsent, List.any_append, List.any_cons, List.any_nil,
          Bool.or_false, Bool.not_or, Bool.and_eq_true, Bool.not_eq_true']
        constructor
        · simpa [keyAbsent] using h1
        · simp only [Bool.not_eq_true', decide_eq_false_iff_not]
          intro he
          have hany : (ps.any fun kv2 => decide (kv2.1 = p.1)) = true :=
            List.any_eq_true.mpr ⟨kv, hkv, by simp [he]⟩
          rw [keyAbsent, hany] at habs
          simp at habs

/-! ### Parser step equations and completeness -/

theorem parseVal_cons (fuel : Nat) (c : Char) (rest : List Char) :
    parseVal (fuel + 1) (c :: rest)
      = (if c = 'n' then
           (expectChars ['u', 'l', 'l'] rest).map (fun r => (Json.null, r))
         else if c = 't' then
           (expectChars ['r', 'u', 'e'] rest).map (fun r => (Json.bool true, r))
         else if c = 'f' then
           (expectChars ['a', 'l', 's', 'e'] rest).map
             (fun r => (Json.bool false, r))
         else if c = '"' then
           (parseStringBody rest.length rest).map
             (fun p => (Json.str ⟨p.1⟩, p.2))
         else if c = '[' then
           match skipWs rest with
           | [] => none
           | c1 :: r =>
               if c1 = ']' then some (Json.arr [], r)
               else parseElems fuel (c1 :: r) []
         else if c = '{' then
           match skipWs rest with
           | [] => none
           | c1 :: r =>
               if c1 = '}' then some (Json.obj [], r)
               else parseMembers fuel (c1 :: r) []
         else (parseNum (c :: rest)).map (fun p => (Json.num p.1, p.2))) := rfl

theorem parseElems_succ (fuel : Nat) (cs : List Char) (acc : List Json) :
    parseElems (fuel + 1) cs acc
      = (match parseVal fuel cs with
         | none => none
         | some (v, r) =>
             match skipWs r with
             | [] => none
             | c :: r2 =>
                 if c = ',' then parseElems fuel (skipWs r2) (acc ++ [v])
                 else if c = ']' then some (Json.arr (acc ++ [v]), r2)
                 else none) := rfl

theorem parsePair_succ (fuel : Nat) (cs : List Char) :
    parsePair (fuel + 1) cs
      = (match cs with
         | [] => none
         | c :: r =>
             if c = '"' then
               match parseStringBody r.length r with
               | some (k, r1) =>
                   match skipWs r1 with
                   | [] => none
                   | c1 :: r2 =>
                       if c1 = ':' then
                         (parseVal fuel (skipWs r2)).map
                           (fun p => ((⟨k⟩, p.1), p.2))
                       else none
               | none => none
             else none) := rfl

theorem parseMembers_succ (fuel : Nat) (cs : List Char)
    (acc : List (String × Json)) :
    parseMembers (fuel + 1) cs acc
      = (match parsePair fuel cs with
         | none => none
         | some (kv, r) =>
             match skipWs r with
             | [] => none
             | c :: r2 =>
                 if c = ',' then
                   parseMembers fuel (skipWs r2)
                     (assocUpsert acc kv.1 (fun _ => kv.2))
                 else if c = '}' then
                   some (Json.obj (assocUpsert acc kv.1 (fun _ => kv.2)), r2)
                 else none) := rfl

theorem sizeJ_pos (j : Json) : 1 ≤ sizeJ j := by
  cases j <;> simp [sizeJ]

theorem elemsDispatch (f : Nat) (x : Json) (lv : Nat) (R : List Char) :
    (match dumpsVal x lv ++ R with
     | [] => none
     | c1 :: r => if c1 = ']' then some (Json.arr [], r)
                  else parseElems f (c1 :: r) [])
      = parseElems f (dumpsVal x lv ++ R) [] := by
  obtain ⟨c, cs, hc, _, hnotRb, _⟩ := dumpsVal_head x lv
  rw [hc, List.cons_append]
  simp only [if_neg hnotRb]

theorem membersDispatch (f : Nat) (k : String) (R : List Char) :
    (match encodeString k.data ++ R with
     | [] => none
     | c1 :: r => if c1 = '}' then some (Json.obj [], r)
                  else parseMembers f (c1 :: r) [])
      = parseMembers f (encodeString k.data ++ R) [] := by
  rw [show encodeString k.data ++ R
      = '"' :: (escapeList k.data ++ ['"'] ++ R) from by simp [encodeString]]
  simp only [Char.reduceEq, reduceIte]

set_option maxHeartbeats 2000000 in
theorem parse_complete : ∀ fuel : Nat,
    (∀ j lvl rest, wfKeys j = true → sizeJ j ≤ fuel → Delim rest →
       parseVal fuel (dumpsVal j lvl ++ rest) = some (j, rest)) ∧
    (∀ v xs lvl rest acc, wfKeys v = true → wfKeysL xs = true →
       1 + sizeJ v + sizeL xs ≤ fuel →
       parseElems fuel
         (dumpsVal v (lvl + 1)
           ++ (dumpsItems xs (lvl + 1)
           ++ '\n' :: (indentChars lvl ++ ']' :: rest))) acc
         = some (.arr (acc ++ v :: xs), rest)) ∧
    (∀ (k : String) v kvs lvl rest acc, wfKeys v = true → wfKeysF kvs = true →
       2 + sizeJ v + sizeF kvs ≤ fuel →
       parseMembers fuel
         (encodeString k.data
           ++ ':' :: ' ' :: (dumpsVal v (lvl + 1)
           ++ (dumpsFields kvs (lvl + 1)
           ++ '\n' :: (indentChars lvl ++ '}' :: rest)))) acc
         = some (.obj (buildFields acc ((k, v) :: kvs)), rest)) := by
  intro fuel
  induction fuel using Nat.strong_induction_on with
  | _ fuel ih =>
  cases fuel with
  | zero =>
      refine ⟨?_, ?_, ?_⟩
      · intro j _ _ _ hsz _
        have := sizeJ_pos j
        omega
      · intro v xs _ _ _ _ _ hsz
        omega
      · intro k v kvs _ _ _ _ _ hsz
        omega
  | succ f =>
  refine ⟨?_, ?_, ?_⟩
  · -- parseVal on a printed value
    intro j lvl rest hwf hsz hdelim
    cases j with
    | null => rfl
    | bool b => cases b <;> rfl
    | num n =>
        obtain ⟨c, cs, hcons, hdig, _⟩ := natToChars_head_cons n.toNat
        have hheadf : ∃ c2 cs2, intToChars n = c2 :: cs2 ∧
            (48 ≤ c2.toNat ∧ c2.toNat ≤ 57 ∨ c2.toNat = 45) := by
          by_cases hneg : n < 0
          · exact ⟨'-', natToChars n.natAbs, by rw [intToChars, if_pos hneg],
              Or.inr rfl⟩
          · obtain ⟨hd1, hd2⟩ := toNat_of_isDigit hdig
            exact ⟨c, cs, by rw [intToChars, if_neg hneg, hcons],
              Or.inl ⟨hd1, hd2⟩⟩
        obtain ⟨c2, cs2, hcons2, hrange⟩ := hheadf
        have hne : ∀ d : Char, 58 ≤ d.toNat → c2 ≠ d := by
          intro d hd he
          subst he
          rcases hrange with ⟨h1, h2⟩ | h1 <;> omega
        rw [show dumpsVal (Json.num n) lvl = intToChars n from rfl, hcons2,
          List.cons_append, parseVal_cons,
          if_neg (hne 'n' (by decide)), if_neg (hne 't' (by decide)),
          if_neg (hne 'f' (by decide)),
          if_neg (fun he => by
            have := congrArg Char.toNat he
            have h34 : ('"' : Char).toNat = 34 := rfl
            rw [h34] at this
            rcases hrange with ⟨h1, _⟩ | h1 <;> omega),
          if_neg (hne '[' (by decide)), if_neg (hne '{' (by decide)),
          ← List.cons_append, ← hcons2, parseNum_intToChars n rest hdelim]
        rfl
    | str s =>
        have hcs : dumpsVal (Json.str s) lvl ++ rest
            = '"' :: (escapeList s.data ++ ('"' :: rest)) := by
          simp [dumpsVal, encodeString]
        rw [hcs, parseVal_cons, if_pos rfl]
        rw [parseStringBody_escape s.data rest _ (by
          have := length_le_escapeList s.data
          simp only [List.length_append, List.length_cons]
          omega)]
        rfl
    | arr l =>
        cases l with
        | nil =>
            rw [show dumpsVal (Json.arr []) lvl = ['[', ']'] from rfl,
              List.cons_append, parseVal_cons]
            simp only [Char.reduceEq, reduceIte]
            rw [List.cons_append, skipWs_cons_not_ws _ (by decide)]
            simp
        | cons x xs =>
            simp only [wfKeys, wfKeysL, Bool.and_eq_true] at hwf
            obtain ⟨hwx, hwxs⟩ := hwf
            simp only [sizeJ, sizeL] at hsz
            have hq := (ih f (Nat.lt_succ_self f)).2.1 x xs lvl rest [] hwx hwxs
              (by omega)
            rw [show dumpsVal (Json.arr (x :: xs)) lvl
                = '[' :: ('\n' :: (indentChars (lvl + 1) ++ dumpsVal x (lvl + 1)
                  ++ dumpsItems xs (lvl + 1)
                  ++ '\n' :: (indentChars lvl ++ [']']))) from rfl]
            rw [List.cons_append, parseVal_cons]
            simp only [Char.reduceEq, reduceIte]
            have hskip : skipWs (('\n' :: (indentChars (lvl + 1)
                ++ dumpsVal x (lvl + 1) ++ dumpsItems xs (lvl + 1)
                ++ '\n' :: (indentChars lvl ++ [']']))) ++ rest)
                = dumpsVal x (lvl + 1) ++ (dumpsItems xs (lvl + 1)
                  ++ '\n' :: (indentChars lvl ++ ']' :: rest)) := by
              rw [List.cons_append, skipWs_cons_ws _ (by decide)]
              simp only [List.append_assoc, List.cons_append, List.nil_append]
              rw [skipWs_indent, skipWs_dumpsVal]
            rw [hskip, elemsDispatch, hq]
            simp
    | obj l =>
        cases l with
        | nil =>
            rw [show dumpsVal (Json.obj []) lvl = ['{', '}'] from rfl,
              List.cons_append, parseVal_cons]
            simp only [Char.reduceEq, reduceIte]
            rw [List.cons_append, skipWs_cons_not_ws _ (by decide)]
            simp
        | cons kv kvs =>
            simp only [wfKeys, wfKeysF, Bool.and_eq_true] at hwf
            obtain ⟨hdist, hwv, hwkvs⟩ := hwf
            simp only [sizeJ, sizeF] at hsz
            have hr := (ih f (Nat.lt_succ_self f)).2.2 kv.1 kv.2 kvs lvl rest []
              hwv hwkvs (by omega)
            rw [show dumpsVal (Json.obj (kv :: kvs)) lvl
                = '{' :: ('\n' :: (indentChars (lvl + 1)
                  ++ encodeString kv.1.data
                  ++ ':' :: ' ' :: dumpsVal kv.2 (lvl + 1)
                  ++ dumpsFields kvs (lvl + 1)
                  ++ '\n' :: (indentChars lvl ++ ['}']))) from rfl]
            rw [List.cons_append, parseVal_cons]
            simp only [Char.reduceEq, reduceIte]
            have hskip : skipWs (('\n' :: (indentChars (lvl + 1)
                ++ encodeString kv.1.data
                ++ ':' :: ' ' :: dumpsVal kv.2 (lvl + 1)
                ++ dumpsFields kvs (lvl + 1)
                ++ '\n' :: (indentChars lvl ++ ['}']))) ++ rest)
                = encodeString kv.1.data
                  ++ ':' :: ' ' :: (dumpsVal kv.2 (lvl + 1)
                  ++ (dumpsFields kvs (lvl + 1)
                  ++ '\n' :: (indentChars lvl ++ '}' :: rest))) := by
              rw [List.cons_append, skipWs_cons_ws _ (by decide)]
              simp only [List.append_assoc, List.cons_append, List.nil_append]
              rw [skipWs_indent]
              rw [show skipWs (encodeString kv.1.data ++ (':' :: ' '
                  :: (dumpsVal kv.2 (lvl + 1) ++ (dumpsFields kvs (lvl + 1)
                  ++ '\n' :: (indentChars lvl ++ ('}' :: rest))))))
                  = encodeString kv.1.data ++ (':' :: ' '
                  :: (dumpsVal kv.2 (lvl + 1) ++ (dumpsFields kvs (lvl + 1)
                  ++ '\n' :: (indentChars lvl ++ ('}' :: rest))))) from by
                rw [show encodeString kv.1.data ++ (':' :: ' '
                    :: (dumpsVal kv.2 (lvl + 1) ++ (dumpsFields kvs (lvl + 1)
                    ++ '\n' :: (indentChars lvl ++ ('}' :: rest)))))
                    = '"' :: (escapeList kv.1.data ++ ['"'] ++ (':' :: ' '
                    :: (dumpsVal kv.2 (lvl + 1) ++ (dumpsFields kvs (lvl + 1)
                    ++ '\n' :: (indentChars lvl ++ ('}' :: rest))))))
                  from by simp [encodeString]]
                exact skipWs_cons_not_ws _ (by decide)]
            rw [hskip, membersDispatch, hr]
            have hb : buildFields [] ((kv.1, kv.2) :: kvs) = kv :: kvs := by
              rw [buildFields_eq_append ((kv.1, kv.2) :: kvs) [] ?_ ?_]
              · simp
              · simpa [keysDistinct] using hdist
              · intro kv2 _
                rfl
            rw [hb]
  · -- parseElems on printed elements
    intro v xs lvl rest acc hwfv hwfxs hsz
    rw [parseElems_succ]
    have hdt : Delim (dumpsItems xs (lvl + 1)
        ++ '\n' :: (indentChars lvl ++ ']' :: rest)) := by
      cases xs <;> simp [dumpsItems, Delim]
    rw [(ih f (Nat.lt_succ_self f)).1 v (lvl + 1) _ hwfv (by omega) hdt]
    cases xs with
    | nil =>
        have hsk : skipWs (dumpsItems ([] : List Json) (lvl + 1)
            ++ '\n' :: (indentChars lvl ++ ']' :: rest)) = ']' :: rest := by
          rw [show dumpsItems ([] : List Json) (lvl + 1) = [] from rfl,
            List.nil_append, skipWs_cons_ws _ (by decide), skipWs_indent,
            skipWs_cons_not_ws _ (by decide)]
        simp only [hsk, Char.reduceEq, reduceIte]
    | cons y ys =>
        simp only [wfKeysL, Bool.and_eq_true] at hwfxs
        obtain ⟨hwy, hwys⟩ := hwfxs
        simp only [sizeL] at hsz
        have hq := (ih f (Nat.lt_succ_self f)).2.1 y ys lvl rest (acc ++ [v])
          hwy hwys (by have := sizeJ_pos v; omega)
        have hsk : skipWs (dumpsItems (y :: ys) (lvl + 1)
            ++ '\n' :: (indentChars lvl ++ ']' :: rest))
            = ',' :: (('\n' :: (indentChars (lvl + 1) ++ dumpsVal y (lvl + 1)
              ++ dumpsItems ys (lvl + 1)))
              ++ '\n' :: (indentChars lvl ++ ']' :: rest)) := by
          rw [show dumpsItems (y :: ys) (lvl + 1)
              = ',' :: ('\n' :: (indentChars (lvl + 1) ++ dumpsVal y (lvl + 1)
                ++ dumpsItems ys (lvl + 1))) from rfl,
            List.cons_append, skipWs_cons_not_ws _ (by decide)]
        have hsk2 : skipWs (('\n' :: (indentChars (lvl + 1)
            ++ dumpsVal y (lvl + 1) ++ dumpsItems ys (lvl + 1)))
            ++ '\n' :: (indentChars lvl ++ ']' :: rest))
            = dumpsVal y (lvl + 1) ++ (dumpsItems ys (lvl + 1)
              ++ '\n' :: (indentChars lvl ++ ']' :: rest)) := by
          rw [List.cons_append, skipWs_cons_ws _ (by decide)]
          simp only [List.append_assoc, List.cons_append, List.nil_append]
          rw [skipWs_indent, skipWs_dumpsVal]
        simp only [hsk, Char.reduceEq, reduceIte, hsk2, hq]
        simp
  · -- parseMembers on printed members
    intro k v kvs lvl rest acc hwfv hwfkvs hsz
    rw [parseMembers_succ]
    have hf1 : 1 ≤ f := by
      have := sizeJ_pos v
      omega
    obtain ⟨f2, rfl⟩ : ∃ f2, f = f2 + 1 := ⟨f - 1, by omega⟩
    have hdAV : Delim (dumpsFields kvs (lvl + 1)
        ++ '\n' :: (indentChars lvl ++ '}' :: rest)) := by
      cases kvs <;> simp [dumpsFields, Delim]
    have hpair : parsePair (f2 + 1)
        (encodeString k.data ++ ':' :: ' ' :: (dumpsVal v (lvl + 1)
          ++ (dumpsFields kvs (lvl + 1)
          ++ '\n' :: (indentChars lvl ++ '}' :: rest))))
        = some ((k, v), dumpsFields kvs (lvl + 1)
            ++ '\n' :: (indentChars lvl ++ '}' :: rest)) := by
      rw [parsePair_succ]
      rw [show encodeString k.data ++ ':' :: ' ' :: (dumpsVal v (lvl + 1)
          ++ (dumpsFields kvs (lvl + 1)
          ++ '\n' :: (indentChars lvl ++ '}' :: rest)))
          = '"' :: (escapeList k.data ++ ('"' :: (':' :: ' '
            :: (dumpsVal v (lvl + 1) ++ (dumpsFields kvs (lvl + 1)
            ++ '\n' :: (indentChars lvl ++ '}' :: rest))))))
        from by simp [encodeString]]
      simp only [Char.reduceEq, reduceIte]
      rw [parseStringBody_escape k.data _ _ (by
        have := length_le_escapeList k.data
        simp only [List.length_append, List.length_cons]
        omega)]
      have hskR : skipWs (':' :: ' ' :: (dumpsVal v (lvl + 1)
          ++ (dumpsFields kvs (lvl + 1)
          ++ '\n' :: (indentChars lvl ++ '}' :: rest))))
          = ':' :: ' ' :: (dumpsVal v (lvl + 1) ++ (dumpsFields kvs (lvl + 1)
          ++ '\n' :: (indentChars lvl ++ '}' :: rest))) :=
        skipWs_cons_not_ws _ (by decide)
      have hskSp : skipWs (' ' :: (dumpsVal v (lvl + 1)
          ++ (dumpsFields kvs (lvl + 1)
          ++ '\n' :: (indentChars lvl ++ '}' :: rest))))
          = dumpsVal v (lvl + 1) ++ (dumpsFields kvs (lvl + 1)
          ++ '\n' :: (indentChars lvl ++ '}' :: rest)) := by
        rw [skipWs_cons_ws _ (by decide), skipWs_dumpsVal]
      have hivv := (ih f2 (by omega)).1 v (lvl + 1)
        (dumpsFields kvs (lvl + 1) ++ '\n' :: (indentChars lvl ++ '}' :: rest))
        hwfv (by omega) hdAV
      simp only [hskR, Char.reduceEq, reduceIte, hskSp, hivv]
      rfl
    rw [hpair]
    cases kvs with
    | nil =>
        have hsk : skipWs (dumpsFields ([] : List (String × Json)) (lvl + 1)
            ++ '\n' :: (indentChars lvl ++ '}' :: rest)) = '}' :: rest := by
          rw [show dumpsFields ([] : List (String × Json)) (lvl + 1) = []
              from rfl,
            List.nil_append, skipWs_cons_ws _ (by decide), skipWs_indent,
            skipWs_cons_not_ws _ (by decide)]
        simp only [hsk, Char.reduceEq, reduceIte]
        rfl
    | cons kv2 kvs2 =>
        simp only [wfKeysF, Bool.and_eq_true] at hwfkvs
        obtain ⟨hwv2, hwkvs2⟩ := hwfkvs
        simp only [sizeF] at hsz
        have hr := (ih (f2 + 1) (Nat.lt_succ_self _)).2.2 kv2.1 kv2.2 kvs2 lvl
          rest (assocUpsert acc k (fun _ => v)) hwv2 hwkvs2
          (by have := sizeJ_pos v; omega)
        have hsk : skipWs (dumpsFields (kv2 :: kvs2) (lvl + 1)
            ++ '\n' :: (indentChars lvl ++ '}' :: rest))
            = ',' :: (('\n' :: (indentChars (lvl + 1)
              ++ encodeString kv2.1.data
              ++ ':' :: ' ' :: dumpsVal kv2.2 (lvl + 1)
              ++ dumpsFields kvs2 (lvl + 1)))
              ++ '\n' :: (indentChars lvl ++ '}' :: rest)) := by
          rw [show dumpsFields (kv2 :: kvs2) (lvl + 1)
              = ',' :: ('\n' :: (indentChars (lvl + 1)
                ++ encodeString kv2.1.data
                ++ ':' :: ' ' :: dumpsVal kv2.2 (lvl + 1)
                ++ dumpsFields kvs2 (lvl + 1))) from rfl,
            List.cons_append, skipWs_cons_not_ws _ (by decide)]
        have hsk2 : skipWs (('\n' :: (indentChars (lvl + 1)
            ++ encodeString kv2.1.data
            ++ ':' :: ' ' :: dumpsVal kv2.2 (lvl + 1)
            ++ dumpsFields kvs2 (lvl + 1)))
            ++ '\n' :: (indentChars lvl ++ '}' :: rest))
            = encodeString kv2.1.data ++ ':' :: ' '
              :: (dumpsVal kv2.2 (lvl + 1) ++ (dumpsFields kvs2 (lvl + 1)
              ++ '\n' :: (indentChars lvl ++ '}' :: rest))) := by
          rw [List.cons_append, skipWs_cons_ws _ (by decide)]
          simp only [List.append_assoc, List.cons_append, List.nil_append]
          rw [skipWs_indent]
          rw [show encodeString kv2.1.data ++ (':' :: ' '
              :: (dumpsVal kv2.2 (lvl + 1) ++ (dumpsFields kvs2 (lvl + 1)
              ++ '\n' :: (indentChars lvl ++ ('}' :: rest)))))
              = '"' :: (escapeList kv2.1.data ++ ['"'] ++ (':' :: ' '
              :: (dumpsVal kv2.2 (lvl + 1) ++ (dumpsFields kvs2 (lvl + 1)
              ++ '\n' :: (indentChars lvl ++ ('}' :: rest))))))
            from by simp [encodeString]]
          rw [skipWs_cons_not_ws _ (by decide)]
        simp only [hsk, Char.reduceEq, reduceIte, hsk2, hr]
        rfl

/-- Reading back what `json.dumps(·, ensure_ascii=False, indent=2)` wrote
(plus the trailing newline `save` appends) returns the value unchanged, for
every value whose dicts bind each key once — which is every value built of
CPython dicts. -/
theorem pyJsonLoads_dumps (d : Json) (hwf : wfKeys d = true) :
    pyJsonLoads (pyJsonDumps d ++ "\n") = some d := by
  have hdata : (pyJsonDumps d ++ "\n").data = dumpsVal d 0 ++ ['\n'] := by
    simp [pyJsonDumps]
  have hsz : sizeJ d ≤ (dumpsVal d 0 ++ ['\n']).length + 1 := by
    have := sizeJ_le d 0
    simp only [List.length_append]
    omega
  have hpv := (parse_complete ((dumpsVal d 0 ++ ['\n']).length + 1)).1 d 0
    ['\n'] hwf hsz (by simp [Delim])
  rw [pyJsonLoads, hdata, skipWs_dumpsVal, hpv]
  rfl

/-- Claim C2: `save` writes the full serialized document to a temporary path
and atomically renames it over the target.  A failure at any point before
the rename — modelled as the tmp file holding an arbitrary partial string —
leaves the previously saved target file byte-identical and readable, and a
reader (who only opens the target path) observes either the old document or
the complete new one, never a partial write.  A completed `save` leaves
exactly the full serialized document in the target file. -/
theorem save_atomic (fs : FS) (data : Json) (partialContent : String)
    (now : Nat) :
    (writeTmp fs partialContent).main = fs.main ∧
    (StateStore.load (writeTmp fs partialContent) now).1
      = (StateStore.load fs now).1 ∧
    (StateStore.save fs data).main = some (serializeDoc data) := by
  refine ⟨rfl, ?_, rfl⟩
  rw [StateStore.load, StateStore.load,
    show (writeTmp fs partialContent).main = fs.main from rfl]
  cases fs.main with
  | none => rfl
  | some content =>
      have key : ∀ r1 r2 : FS,
          (match pyJsonLoads content with
           | some d => (d, r1)
           | none =>
               (freshDoc, FS.mk none r1.tmp ((now, content) :: r1.backups))).1
          = (match pyJsonLoads content with
             | some d => (d, r2)
             | none =>
                 (freshDoc,
                  FS.mk none r2.tmp ((now, content) :: r2.backups))).1 := by
        intro r1 r2
        cases pyJsonLoads content <;> rfl
      exact key (writeTmp fs partialContent) fs

/-- Claim C5: `load` is a total function of the file contents — no failure
escapes to the caller.  A missing file yields the fresh empty document with
the file system untouched; an unparseable file is renamed aside to a
timestamped backup and the fresh empty document is returned. -/
theorem load_recovers (fs : FS) (now : Nat) :
    (fs.main = none → StateStore.load fs now = (freshDoc, fs)) ∧
    (∀ content, fs.main = some content → pyJsonLoads content = none →
      StateStore.load fs now
        = (freshDoc,
           { fs with main := none,
                     backups := (now, content) :: fs.backups })) := by
  constructor
  · intro h
    rw [StateStore.load, h]
  · intro content h hparse
    rw [StateStore.load, h]
    show (match pyJsonLoads content with
      | some d => (d, fs)
      | none =>
          (freshDoc, FS.mk none fs.tmp ((now, content) :: fs.backups)))
      = (freshDoc, FS.mk none fs.tmp ((now, content) :: fs.backups))
    rw [hparse]

/-- Witness for C5: a store file holding `not json` is quarantined and the
fresh empty document returned. -/
theorem load_recovers_app :
    pyJsonLoads "not json" = none ∧
    StateStore.load { main := some "not json", tmp := none, backups := [] } 7
      = (freshDoc,
         { main := none, tmp := none, backups := [(7, "not json")] }) := by
  refine ⟨rfl, ?_⟩
  exact (load_recovers
    { main := some "not json", tmp := none, backups := [] } 7).2
    "not json" rfl rfl

/-- Claim C6: after a `save`, reading the document back and saving it again
with no mutation in between leaves the whole file-system slice — in
particular the stored file's bytes — unchanged.  `wfKeys` states that every
dict in the document binds each key once, which holds of every document a
Python caller can pass to `save` (CPython dicts cannot bind a key twice). -/
theorem save_load_save_noop (fs0 : FS) (d : Json) (now : Nat)
    (hwf : wfKeys d = true) :
    StateStore.save (StateStore.save fs0 d)
        ((StateStore.load (StateStore.save fs0 d) now).1)
      = StateStore.save fs0 d := by
  have hload : (StateStore.load (StateStore.save fs0 d) now).1 = d := by
    rw [StateStore.save, StateStore.load]
    show (match pyJsonLoads (serializeDoc d) with
      | some d2 => (d2, renameTmpOverMain (writeTmp fs0 (serializeDoc d)))
      | none =>
          (freshDoc,
           { renameTmpOverMain (writeTmp fs0 (serializeDoc d)) with
               main := none,
               backups := (now, serializeDoc d)
                 :: (renameTmpOverMain (writeTmp fs0 (serializeDoc d))).backups })).1
      = d
    rw [show pyJsonLoads (serializeDoc d) = some d from pyJsonLoads_dumps d hwf]
  rw [hload]
  rfl

/-- Witness for C6 at the fresh empty document on an empty file system. -/
theorem save_load_save_noop_app :
    wfKeys freshDoc = true ∧
    StateStore.save (StateStore.save ⟨none, none, []⟩ freshDoc)
        ((StateStore.load (StateStore.save ⟨none, none, []⟩ freshDoc) 3).1)
      = StateStore.save ⟨none, none, []⟩ freshDoc :=
  ⟨rfl, save_load_save_noop ⟨none, none, []⟩ freshDoc 3 rfl⟩

theorem extractScan_skip (raw sline : String) (post : List String) :
    ∀ (pre before : List String), (∀ l ∈ pre, isSentinel l = false) →
    extractScan raw before (pre ++ (sline :: post)) =
      extractScan raw (before ++ pre) (sline :: post) := by
  intro pre
  induction pre with
  | nil => intro before _; simp
  | cons p ps ih =>
      intro before h
      have hp : isSentinel p = false := h p (List.mem_cons_self p ps)
      have hrest : ∀ l ∈ ps, isSentinel l = false :=
        fun l hl => h l (List.mem_cons_of_mem p hl)
      rw [List.cons_append, extractScan, if_neg (by simp [hp])]
      rw [ih (before ++ [p]) hrest, List.append_assoc]
      rfl

/-- **C9.**  If the input text has a line whose stripped, uppercased form is
the sentinel `TG_COURIER_TOOL: DETACH`, no earlier line is a sentinel, and
the first non-blank line after the sentinel is absent, is not valid JSON, or
parses to a non-object, then `extract_detach_directive` reports no directive
and returns the original text unchanged, the sentinel line still among its
lines. -/
theorem detach_malformed_json_ignored (text sline : String)
    (pre post : List String)
    (hsplit : pySplitlines text = pre ++ sline :: post)
    (hpre : ∀ l ∈ pre, isSentinel l = false)
    (hsent : isSentinel sline = true)
    (hbad : match post.dropWhile (fun l => (pyStrip l).isEmpty) with
      | [] => True
      | jline :: _ => pyJsonLoads jline = none ∨
          ∃ v, pyJsonLoads jline = some v ∧ isObj v = false) :
    extract_detach_directive text = (none, text) ∧
    sline ∈ pySplitlines text := by
  constructor
  · show extractScan text [] (pySplitlines text) = (none, text)
    rw [hsplit, extractScan_skip text sline post pre [] hpre]
    rw [extractScan, if_pos hsent]
    cases hdw : post.dropWhile (fun l => (pyStrip l).isEmpty) with
    | nil => simp only [hdw]
    | cons jline tail =>
        simp only [hdw] at hbad ⊢
        rcases hbad with hn | ⟨v, hv, hobj⟩
        · simp only [hn]
        · simp only [hv, hobj, Bool.false_eq_true, if_false]
  · rw [hsplit]
    exact List.mem_append_right pre (List.mem_cons_self sline post)

/-- Witness for C9 at the concrete text `c9Text`: the sentinel line followed
by the unparseable line `nope`. -/
theorem detach_malformed_json_ignored_app :
    (pySplitlines c9Text = [] ++ "TG_COURIER_TOOL: DETACH" :: ["nope"] ∧
     isSentinel "TG_COURIER_TOOL: DETACH" = true ∧
     pyJsonLoads "nope" = none) ∧
    (extract_detach_directive c9Text = (none, c9Text) ∧
     "TG_COURIER_TOOL: DETACH" ∈ pySplitlines c9Text) :=
  ⟨⟨rfl, rfl, rfl⟩,
   detach_malformed_json_ignored c9Text "TG_COURIER_TOOL: DETACH" [] ["nope"]
     rfl (by simp) rfl (Or.inl rfl)⟩

/-- **C4, counterexample.**  The reply carrying the sentinel followed by the
empty JSON object is a detach directive whose `cmd` field is missing, yet
the dispatch neither appends nor sends any diagnostic: the falsy empty dict
fails `if detach_spec:` and the raw reply (sentinel included) is appended to
the assistant history and sent, refuting the claim as stated. -/
theorem detach_empty_spec_falls_through :
    extract_detach_directive c4Reply = (some (Json.obj []), "") ∧
    dictGet (Json.obj []) "cmd" = none ∧
    handleReply c4Reply 1 "job-1.log" "/work" "/home/u" =
      [Effect.histAppend "assistant" c4Reply, Effect.send c4Reply] :=
  ⟨rfl, rfl, rfl⟩

/-- **C4 (amended).**  For every reply whose extracted detach spec is truthy
(a non-empty object) but whose `cmd` field is missing or invalid, the
dispatch appends the diagnostic to the assistant history and sends it, and
does nothing else: no background job is launched and the raw reply is
neither appended nor sent.  (A directive with the falsy empty-object spec
instead falls through to the normal reply path.) -/
theorem detach_bad_cmd_diagnostic (reply : String) (spec : Json)
    (cleaned : String) (bgJobId : Nat) (logPath wd home : String)
    (hext : extract_detach_directive reply = (some spec, cleaned))
    (htr : pyTruthy spec = true)
    (hcmd : detachCmd spec = none) :
    handleReply reply bgJobId logPath wd home =
      [Effect.histAppend "assistant" badDetachMsg, Effect.send badDetachMsg] := by
  unfold handleReply
  rw [hext]
  simp only [htr, reduceIte, hcmd]

/-- Witness for C4 (amended) at the concrete reply `c4WitnessReply`, whose
spec carries only a title: it is truthy and has no `cmd`. -/
theorem detach_bad_cmd_diagnostic_app :
    (extract_detach_directive c4WitnessReply = (some c4WitnessSpec, "") ∧
     pyTruthy c4WitnessSpec = true ∧ detachCmd c4WitnessSpec = none) ∧
    handleReply c4WitnessReply 7 "job-7.log" "/work" "/home/u" =
      [Effect.histAppend "assistant" badDetachMsg, Effect.send badDetachMsg] :=
  ⟨⟨rfl, rfl, rfl⟩,
   detach_bad_cmd_diagnostic c4WitnessReply c4WitnessSpec "" 7 "job-7.log"
     "/work" "/home/u" rfl rfl rfl⟩

theorem cmd_claim_fst_of_claimed (s : ClaimSettings)
    (d : List (String × Json)) (u : ClaimUpdate) (v : Int)
    (h : get_claimed_user_id d = some v) : (cmd_claim s d u).1 = d := by
  simp only [cmd_claim, h]
  split_ifs <;> rfl

theorem runClaims_of_claimed (s : ClaimSettings) (v : Int)
    (us : List ClaimUpdate) :
    ∀ d, get_claimed_user_id d = some v → runClaims s d us = d := by
  induction us with
  | nil => intro d _; rfl
  | cons u us ih =>
      intro d h
      show runClaims s ((cmd_claim s d u).1) us = d
      rw [cmd_claim_fst_of_claimed s d u v h]
      exact ih d h

/-- **C8.**  The claimed identity is written at most once: once any prefix
of a sequence of `/claim` invocations has left `claimed_user_id` set (by the
first successful claim), every later invocation leaves the persisted
document — the claimed value included — entirely unchanged.  Each
invocation is one atomic step: the check-then-set path of `cmd_claim` runs
without an intervening `await`. -/
theorem claim_at_most_once (s : ClaimSettings) (data : List (String × Json))
    (us1 us2 : List ClaimUpdate) (v : Int)
    (h : get_claimed_user_id (runClaims s data us1) = some v) :
    runClaims s data (us1 ++ us2) = runClaims s data us1 ∧
    get_claimed_user_id (runClaims s data (us1 ++ us2)) = some v := by
  have hsplit : runClaims s data (us1 ++ us2)
      = runClaims s (runClaims s data us1) us2 := by
    unfold runClaims
    exact List.foldl_append ..
  rw [hsplit, runClaims_of_claimed s v us2 (runClaims s data us1) h]
  exact ⟨rfl, h⟩

/-- Witness for C8: from the fresh document, the first good claim sets
user 5; a later good claim by user 7 changes nothing. -/
theorem claim_at_most_once_app :
    get_claimed_user_id (runClaims c8Settings c8Doc [c8First]) = some 5 ∧
    (runClaims c8Settings c8Doc ([c8First] ++ [c8Update]) =
       runClaims c8Settings c8Doc [c8First] ∧
     get_claimed_user_id
       (runClaims c8Settings c8Doc ([c8First] ++ [c8Update])) = some 5) :=
  ⟨rfl, claim_at_most_once c8Settings c8Doc [c8First] [c8Update] 5 rfl⟩

end TgCourier
